import Mathlib

/-!
Verification of the graph-traversal analyzer of `src/tools.py`
(`analyze_graph_traversal` and its helper functions `is_connected`,
`find_connected_components`, `find_shortest_path`, `find_all_paths`,
`detect_cycles`).

Modelling conventions:
* Python's `defaultdict(list)` (`graph`) is an insertion-ordered association
  list `List (String × List String)`; reads go through `adj` (first matching
  key, `[]` when absent).  The separate, state-threading `…St` versions model
  the defaultdict's auto-insertion of missing keys on read.
* Python's `set` (`nodes`, `visited`, …) is modelled as an insertion-ordered
  duplicate-free list; only membership and cardinality are ever used by the
  source, except for iteration order, which this model fixes to insertion
  order (CPython's set iteration order is unspecified).
* `re.findall` for the two concrete patterns of the source is modelled
  directly (`findEdges`, `countColor`); `json.loads` is modelled on the
  object-of-arrays-of-strings fragment the surrounding loop consumes
  (`parseMapping`).
* Recursions that Python runs on the call stack are given explicit fuel that
  provably exceeds the recursion depth reachable from the corresponding
  entry points, or a well-founded measure.
-/

namespace GraphTool

/-- A parsed graph: insertion-ordered association list from node label to its
adjacency list, modelling the `graph = defaultdict(list)` of
`analyze_graph_traversal`. -/
abbrev Graph := List (String × List String)

/-- Adjacency-list read, modelling `graph[node]` where the read cannot create
a key (pure view): the list stored at the first matching key, `[]` when the
key is absent (the defaultdict default value). -/
def adj (g : Graph) (k : String) : List String :=
  match g with
  | [] => []
  | (k', l) :: t => if k' = k then l else adj t k

/-- Models `graph[a].append(b)`: append `b` to `a`'s adjacency list, creating
the key at the end of the mapping when missing (dict insertion order). -/
def gAppend (g : Graph) (a b : String) : Graph :=
  match g with
  | [] => [(a, [b])]
  | (k, l) :: t => if k = a then (k, l ++ [b]) :: t else (k, l) :: gAppend t a b

/-- Models `nodes.add(a)` on the insertion-ordered set model. -/
def nAdd (ns : List String) (a : String) : List String :=
  if a ∈ ns then ns else ns ++ [a]

theorem adj_nil_of_not_key {g : Graph} {n : String} (h : n ∉ g.map Prod.fst) :
    adj g n = [] := by
  induction g with
  | nil => rfl
  | cons p t ih =>
    obtain ⟨k, l⟩ := p
    simp only [List.map_cons, List.mem_cons] at h
    push_neg at h
    have hk : ¬ (k = n) := fun hk => h.1 hk.symm
    simp only [adj, if_neg hk]
    exact ih h.2

theorem adj_gAppend (g : Graph) (a b k : String) :
    adj (gAppend g a b) k = if a = k then adj g k ++ [b] else adj g k := by
  induction g with
  | nil =>
    by_cases h : a = k <;> simp [gAppend, adj, h]
  | cons p t ih =>
    obtain ⟨k', l⟩ := p
    by_cases h1 : k' = a
    · subst h1
      by_cases h2 : k' = k
      · subst h2; simp [gAppend, adj]
      · simp [gAppend, adj, h2]
    · by_cases h2 : k' = k
      · subst h2
        have : ¬ a = k' := fun h => h1 h.symm
        simp [gAppend, adj, h1, this]
      · simp [gAppend, adj, h1, h2, ih]

/-- Membership in the keys of the graph. -/
theorem mem_keys_gAppend (g : Graph) (a b k : String) :
    k ∈ (gAppend g a b).map Prod.fst ↔ k = a ∨ k ∈ g.map Prod.fst := by
  induction g with
  | nil => simp [gAppend]
  | cons p t ih =>
    obtain ⟨k', l⟩ := p
    by_cases h : k' = a
    · subst h
      have hg : gAppend ((k', l) :: t) k' b = (k', l ++ [b]) :: t := by
        simp [gAppend]
      rw [hg]
      simp only [List.map_cons, List.mem_cons]
      tauto
    · simp only [gAppend, if_neg h, List.map_cons, List.mem_cons, ih]
      tauto

/- ### Characters, substrings and the edge-pattern scan -/

/-- The regex class `[A-Za-z0-9]`. -/
def isAlnumA (c : Char) : Bool := c.isAlpha || c.isDigit

/-- Case-folding, modelling `str.lower()` on the inputs in scope. -/
def lowerL (cs : List Char) : List Char := cs.map Char.toLower

/-- Whether `pre` is a prefix of `l`, character by character. -/
def leadsWith : List Char → List Char → Bool
  | [], _ => true
  | _ :: _, [] => false
  | a :: as, b :: bs => a == b && leadsWith as bs

/-- Substring containment (`needle in hay` on Python strings). -/
def containsSub (needle : List Char) : List Char → Bool
  | [] => needle.isEmpty
  | c :: t => leadsWith needle (c :: t) || containsSub needle t

/-- Substring containment on `String`. -/
def containsSubS (needle hay : String) : Bool := containsSub needle.toList hay.toList

/-- One attempt of the pattern `([A-Za-z0-9]+)\s*S\s*([A-Za-z0-9]+)` anchored
at the head of `cs`, where the separator is a single character satisfying
`sep` (the source's classes `[-→>]` and `,`).  Greedy runs with the only
viable backtracking already resolved: a shorter first group would leave an
alphanumeric character where the separator must match.  Returns both groups
and the remainder of the input after the match. -/
def matchEdgeAt (sep : Char → Bool) (cs : List Char) : Option (String × String × List Char) :=
  if (cs.takeWhile isAlnumA).isEmpty then none else
    match (cs.dropWhile isAlnumA).dropWhile Char.isWhitespace with
    | [] => none
    | c :: r3 =>
      if sep c then
        if ((r3.dropWhile Char.isWhitespace).takeWhile isAlnumA).isEmpty then none
        else some (String.mk (cs.takeWhile isAlnumA),
                   String.mk ((r3.dropWhile Char.isWhitespace).takeWhile isAlnumA),
                   (r3.dropWhile Char.isWhitespace).dropWhile isAlnumA)
      else none

theorem length_dropWhile_le {α : Type} (p : α → Bool) (l : List α) :
    (l.dropWhile p).length ≤ l.length := by
  induction l with
  | nil => simp
  | cons a t ih =>
    by_cases h : p a
    · simp only [List.dropWhile_cons, h, if_true]
      exact Nat.le_succ_of_le ih
    · simp [List.dropWhile_cons, h]

theorem length_dropWhile_lt {α : Type} (p : α → Bool) (l : List α)
    (h : ¬ (l.takeWhile p).isEmpty = true) : (l.dropWhile p).length < l.length := by
  cases l with
  | nil => simp [List.takeWhile_nil] at h
  | cons a t =>
    by_cases hp : p a
    · simp only [List.dropWhile_cons, hp, if_true, List.length_cons]
      exact Nat.lt_succ_of_le (length_dropWhile_le _ _)
    · simp [List.takeWhile_cons, hp] at h

theorem matchEdgeAt_rest_lt {sep : Char → Bool} {cs : List Char}
    {a b : String} {r : List Char} (h : matchEdgeAt sep cs = some (a, b, r)) :
    r.length < cs.length := by
  unfold matchEdgeAt at h
  split at h
  · exact Option.noConfusion h
  · rename_i hg1
    split at h
    · exact Option.noConfusion h
    · rename_i c r3 heq
      split at h
      · split at h
        · exact Option.noConfusion h
        · rename_i hsep hg2
          have h' := Option.some.inj h
          have hr : r = (r3.dropWhile Char.isWhitespace).dropWhile isAlnumA :=
            (congrArg (fun x => x.2.2) h').symm
          have h1 : r.length ≤ r3.length := by
            rw [hr]
            exact le_trans (length_dropWhile_le _ _) (length_dropWhile_le _ _)
          have h2 : r3.length < (cs.dropWhile isAlnumA).length := by
            have hle := length_dropWhile_le Char.isWhitespace (cs.dropWhile isAlnumA)
            rw [heq] at hle
            exact Nat.lt_of_lt_of_le (Nat.lt_succ_self _) hle
          exact lt_trans (Nat.lt_of_le_of_lt h1 h2) (length_dropWhile_lt _ _ hg1)
      · exact Option.noConfusion h

/-- Models `re.findall(pattern, text)` for the source's edge patterns:
leftmost, non-overlapping matches, advancing one character after a failed
attempt.  The fuel argument only serves structural recursion: every step
strictly shortens the input (`matchEdgeAt_rest_lt`), so `cs.length` steps
always suffice. -/
def findEdgesF (sep : Char → Bool) : Nat → List Char → List (String × String)
  | 0, _ => []
  | _ + 1, [] => []
  | fuel + 1, c :: rest =>
    match matchEdgeAt sep (c :: rest) with
    | some (a, b, r) => (a, b) :: findEdgesF sep fuel r
    | none => findEdgesF sep fuel rest

/-- `re.findall` of an edge pattern over the whole input. -/
def findEdges (sep : Char → Bool) (cs : List Char) : List (String × String) :=
  findEdgesF sep cs.length cs

/-- The separator class `[-→>]` of the first two (identical) edge patterns. -/
def sepDash (c : Char) : Bool := c == '-' || c == '→' || c == '>'

/-- The separator of the third edge pattern (`,`). -/
def sepComma (c : Char) : Bool := c == ','

/-- The `edge_patterns` loop of the source: the first two patterns are the
same `[-→>]` pattern, the third uses `,`; the first pattern that produces any
match wins (`break`). -/
def edgeMatches (text : String) : List (String × String) :=
  let m1 := findEdges sepDash text.toList
  if m1.isEmpty then findEdges sepComma text.toList else m1

/-- The test deciding reverse-edge insertion, evaluated once per matched edge
on the whole input text:
`"undirected" in graph_data.lower() or "-" in graph_data`. -/
def revCond (text : String) : Bool :=
  containsSub "undirected".toList (lowerL text.toList) || text.toList.contains '-'

/-- The accumulated parse state: the adjacency mapping, the node set
(insertion-ordered) and the edge list of `analyze_graph_traversal`. -/
structure ParseSt where
  graph : Graph
  nodes : List String
  edges : List (String × String)
deriving Repr, DecidableEq

/-- Folding the edge-list matches into the parse state, as the source's
`for u, v in matches` loop does: add both endpoints to the node set, append
the forward edge, append the reverse edge when `rev` holds, record the match
in `edges`. -/
def addEdgeListMatches (rev : Bool) : List (String × String) → ParseSt → ParseSt
  | [], st => st
  | (u, v) :: t, st =>
    let g1 := gAppend st.graph u v
    let g2 := if rev then gAppend g1 v u else g1
    addEdgeListMatches rev t ⟨g2, nAdd (nAdd st.nodes u) v, st.edges ++ [(u, v)]⟩

/- ### Mapping form (`json.loads`) -/

/-- The `graph_data.replace("'", '"')` preprocessing. -/
def jsonQuote (cs : List Char) : List Char :=
  cs.map (fun c => if c = '\'' then '"' else c)

/-- Drop JSON whitespace. -/
def skipWs (cs : List Char) : List Char := cs.dropWhile Char.isWhitespace

/-- Parse a double-quoted JSON string without escape sequences, returning the
contents and the rest of the input. -/
def parseJString : List Char → Option (String × List Char)
  | '"' :: t =>
    match t.dropWhile (· != '"') with
    | '"' :: r => some (String.mk (t.takeWhile (· != '"')), r)
    | _ => none
  | _ => none

/-- Parse the items of a JSON array of strings after the opening `[`. -/
def parseJArrItems (fuel : Nat) (cs : List Char) (acc : List String) :
    Option (List String × List Char) :=
  match fuel with
  | 0 => none
  | fuel + 1 =>
    match skipWs cs with
    | ']' :: r => some (acc, r)
    | ',' :: r =>
      match parseJString (skipWs r) with
      | some (s, r') => parseJArrItems fuel r' (acc ++ [s])
      | none => none
    | _ => none

/-- Parse a JSON array of strings (after the opening `[` has been consumed):
either immediately `]`, or a first string followed by `, string`* and `]`. -/
def parseJArr (cs : List Char) : Option (List String × List Char) :=
  match skipWs cs with
  | ']' :: r => some ([], r)
  | r0 =>
    match parseJString r0 with
    | some (s, r1) => parseJArrItems (r1.length + 1) r1 [s]
    | none => none

/-- Parse the members of a JSON object after the opening brace: `"key" : [...]`
pairs separated by commas, ended by the closing brace.  Returns the pairs in
textual order and the rest of the input. -/
def parseJPairs (fuel : Nat) (cs : List Char) (acc : List (String × List String)) :
    Option (List (String × List String) × List Char) :=
  match fuel with
  | 0 => none
  | fuel + 1 =>
    match parseJString (skipWs cs) with
    | none => none
    | some (k, r1) =>
      match skipWs r1 with
      | ':' :: r2 =>
        match skipWs r2 with
        | '[' :: r3 =>
          match parseJArr r3 with
          | none => none
          | some (vs, r4) =>
            match skipWs r4 with
            | ',' :: r5 => parseJPairs fuel r5 (acc ++ [(k, vs)])
            | '\x7d' :: r5 => some (acc ++ [(k, vs)], r5)
            | _ => none
        | _ => none
      | _ => none

/-- Models `json.loads(graph_data.replace("'", '"'))` restricted to the JSON
fragment the surrounding `for node, neighbors in graph_dict.items()` loop
consumes: an object whose values are arrays of strings, with no escape
sequences.  Documents outside this fragment are treated like the `json.loads`
failures the source catches with `except: pass` (falling through to the
edge-list patterns). -/
def parseMapping (text : String) : Option (List (String × List String)) :=
  match skipWs (jsonQuote text.toList) with
  | '\x7b' :: r =>
    match skipWs r with
    | '\x7d' :: r2 => if (skipWs r2).isEmpty then some [] else none
    | _ =>
      match parseJPairs (r.length + 1) r [] with
      | some (ps, rest) => if (skipWs rest).isEmpty then some ps else none
      | none => none
  | _ => none

/-- Folding one `(node, neighbors)` item of the mapping into the parse state:
`nodes.add(node)`, then per neighbor `nodes.add(neighbor)`,
`graph[node].append(neighbor)`, `edges.append((node, neighbor))`. -/
def addMappingNeighbors (node : String) : List String → ParseSt → ParseSt
  | [], st => st
  | v :: t, st =>
    addMappingNeighbors node t
      ⟨gAppend st.graph node v, nAdd st.nodes v, st.edges ++ [(node, v)]⟩

/-- Folding all mapping items into the parse state, in item order. -/
def addMappingPairs : List (String × List String) → ParseSt → ParseSt
  | [], st => st
  | (k, vs) :: t, st =>
    addMappingPairs t (addMappingNeighbors k vs ⟨st.graph, nAdd st.nodes k, st.edges⟩)

/-- The mapping-form phase: attempted only when the text contains both
braces; a failed `json.loads` leaves the state empty (`except: pass`). -/
def mappingStage (text : String) : ParseSt :=
  if text.toList.contains '\x7b' && text.toList.contains '\x7d' then
    match parseMapping text with
    | some pairs => addMappingPairs pairs ⟨[], [], []⟩
    | none => ⟨[], [], []⟩
  else ⟨[], [], []⟩

/-- The full parsing phase of `analyze_graph_traversal`: the mapping form
first, then the edge-list patterns when the graph is still empty
(`if not graph`). -/
def parseGraphData (text : String) : ParseSt :=
  if (mappingStage text).graph.isEmpty then
    addEdgeListMatches (revCond text) (edgeMatches text) (mappingStage text)
  else mappingStage text

/- ### Python rendering helpers -/

/-- A string of `n` copies of `c`, modelling Python's `c * n`. -/
def repeatC (c : Char) (n : Nat) : String := String.mk (List.replicate n c)

/-- Python `repr` of a simple string (single quotes). -/
def pyStr (s : String) : String := "'" ++ s ++ "'"

/-- Python `str` of a list of strings, e.g. `['A', 'B']`. -/
def pyListRepr (l : List String) : String :=
  "[" ++ String.intercalate ", " (l.map pyStr) ++ "]"

/-- Python `str` of a dict from strings to ints, e.g. `{'A': 2, 'B': 1}`. -/
def pyDictReprNat (l : List (String × Nat)) : String :=
  "\x7b" ++ String.intercalate ", " (l.map (fun p => pyStr p.1 ++ ": " ++ toString p.2)) ++ "\x7d"

/-- Lexicographic code-point comparison, as Python compares strings. -/
def lexLt : List Char → List Char → Bool
  | [], [] => false
  | [], _ :: _ => true
  | _ :: _, [] => false
  | a :: as, b :: bs =>
    if a.toNat < b.toNat then true
    else if b.toNat < a.toNat then false
    else lexLt as bs

/-- String comparison by code points. -/
def strLt (a b : String) : Bool := lexLt a.toList b.toList

/-- Insert into a sorted list of strings (code-point order, as Python's
`sorted` compares strings). -/
def insertSorted (a : String) : List String → List String
  | [] => [a]
  | b :: t => if strLt a b then a :: b :: t else b :: insertSorted a t

/-- Python's `sorted` on a list of distinct strings. -/
def pySorted (l : List String) : List String := l.foldr insertSorted []

/- ### Structural analyzers (pure views) -/

/-- Boolean membership, modelling Python's `in` on the set model. -/
def memB (a : String) : List String → Bool
  | [] => false
  | b :: t => a == b || memB a t

theorem memB_iff {a : String} {l : List String} : memB a l = true ↔ a ∈ l := by
  induction l with
  | nil => simp [memB]
  | cons b t ih => simp [memB, ih, beq_iff_eq]

theorem memB_eq_false {a : String} {l : List String} : memB a l = false ↔ a ∉ l := by
  rw [← Bool.not_eq_true, not_iff_not]
  exact memB_iff

/-- Termination potential for the iterative DFS: total remaining work of the
unvisited keys. -/
def remWeight (g : Graph) (visited : List String) : Nat :=
  (((g.map Prod.fst).filter (fun v => !(memB v visited))).map
    (fun v => 1 + (adj g v).length)).sum

theorem memB_cons (a n : String) (vis : List String) :
    memB a (n :: vis) = ((a == n) || memB a vis) := rfl

theorem sum_map_filter_le (f : String → Nat) (p q : String → Bool) (l : List String)
    (h : ∀ a, q a = true → p a = true) :
    ((l.filter q).map f).sum ≤ ((l.filter p).map f).sum := by
  induction l with
  | nil => simp
  | cons a t ih =>
    by_cases hq : q a
    · rw [List.filter_cons_of_pos hq, List.filter_cons_of_pos (h a hq)]
      simp only [List.map_cons, List.sum_cons]
      exact Nat.add_le_add_left ih _
    · rw [List.filter_cons_of_neg (by simpa using hq)]
      by_cases hp : p a
      · rw [List.filter_cons_of_pos hp]
        simp only [List.map_cons, List.sum_cons]
        exact le_trans ih (Nat.le_add_left _ _)
      · rw [List.filter_cons_of_neg (by simpa using hp)]
        exact ih

theorem sum_map_filter_add_le (f : String → Nat) (p q : String → Bool)
    {l : List String} {n : String} (h : ∀ a, q a = true → p a = true)
    (hqn : q n = false) (hpn : p n = true) (hm : n ∈ l) :
    ((l.filter q).map f).sum + f n ≤ ((l.filter p).map f).sum := by
  induction l with
  | nil => simp at hm
  | cons a t ih =>
    by_cases ha : a = n
    · subst ha
      rw [List.filter_cons_of_neg (by simpa using hqn), List.filter_cons_of_pos hpn]
      simp only [List.map_cons, List.sum_cons]
      have := sum_map_filter_le f p q t h
      omega
    · have hm' : n ∈ t := by
        cases List.mem_cons.mp hm with
        | inl h' => exact absurd h'.symm ha
        | inr h' => exact h'
      by_cases hq : q a
      · rw [List.filter_cons_of_pos hq, List.filter_cons_of_pos (h a hq)]
        simp only [List.map_cons, List.sum_cons]
        have := ih hm'
        omega
      · rw [List.filter_cons_of_neg (by simpa using hq)]
        by_cases hp : p a
        · rw [List.filter_cons_of_pos hp]
          simp only [List.map_cons, List.sum_cons]
          have := ih hm'
          omega
        · rw [List.filter_cons_of_neg (by simpa using hp)]
          exact ih hm'

theorem sum_filter_cons_le (f : String → Nat) (l vis : List String) (n : String) :
    ((l.filter (fun v => !(memB v (n :: vis)))).map f).sum ≤
      ((l.filter (fun v => !(memB v vis))).map f).sum := by
  apply sum_map_filter_le
  intro a ha
  simp only [memB_cons, Bool.not_or, Bool.and_eq_true, Bool.not_eq_true'] at ha
  simp [ha.2]

theorem sum_filter_cons_add_le (f : String → Nat) {l vis : List String} {n : String}
    (hm : n ∈ l) (hn : memB n vis = false) :
    ((l.filter (fun v => !(memB v (n :: vis)))).map f).sum + f n ≤
      ((l.filter (fun v => !(memB v vis))).map f).sum := by
  apply sum_map_filter_add_le
  · intro a ha
    simp only [memB_cons, Bool.not_or, Bool.and_eq_true, Bool.not_eq_true'] at ha
    simp [ha.2]
  · simp [memB_cons]
  · simp [hn]
  · exact hm

theorem remWeight_cons_le (g : Graph) (vis : List String) (n : String) :
    remWeight g (n :: vis) ≤ remWeight g vis :=
  sum_filter_cons_le _ _ _ _

theorem remWeight_cons_add_le (g : Graph) {vis : List String} {n : String}
    (hk : n ∈ g.map Prod.fst) (hn : memB n vis = false) :
    remWeight g (n :: vis) + (1 + (adj g n).length) ≤ remWeight g vis :=
  sum_filter_cons_add_le _ hk hn

/-- The iterative DFS loop of `is_connected`: the Python list used as a stack
pops from its end, so the model keeps the top of the stack at the head and
pushes `stack.extend(...)`'s generator output reversed.  `visited.add(node)`
happens before the generator filters on `visited`, hence `n :: visited` in
the filter.  The fuel argument only serves structural recursion: every
iteration strictly decreases `stack.length + remWeight g visited`
(`dfsLoop_run_on` below), so the canonical fuel of `is_connected` is never
exhausted and the loop runs to the empty stack, exactly as Python's `while
stack` does. -/
def dfsLoop (g : Graph) : Nat → List String → List String → List String
  | 0, _, visited => visited
  | _ + 1, [], visited => visited
  | fuel + 1, n :: stack, visited =>
    if memB n visited then dfsLoop g fuel stack visited
    else dfsLoop g fuel
      (((adj g n).filter (fun x => !(memB x (n :: visited)))).reverse ++ stack)
      (n :: visited)

/-- `is_connected(graph, nodes)` from the source: DFS from the first element
of the node set, then `len(visited) == len(nodes)`. -/
def is_connected (g : Graph) (nodes : List String) : Bool :=
  match nodes with
  | [] => true
  | n :: rest => (dfsLoop g (2 + remWeight g []) [n] []).length == (n :: rest).length

/-- The inner while-loop of `find_connected_components`, which also collects
the current component; fuel as in `dfsLoop`. -/
def fccDfs (g : Graph) : Nat → List String → List String → List String → List String × List String
  | 0, _, visited, comp => (visited, comp)
  | _ + 1, [], visited, comp => (visited, comp)
  | fuel + 1, n :: stack, visited, comp =>
    if memB n visited then fccDfs g fuel stack visited comp
    else fccDfs g fuel
      (((adj g n).filter (fun x => !(memB x (n :: visited)))).reverse ++ stack)
      (n :: visited) (comp ++ [n])

/-- The `for node in nodes` loop of `find_connected_components`: one DFS per
still-unvisited node, appending the discovered component. -/
def fccGo (g : Graph) : List String → List String → List (List String) → List (List String)
  | [], _, comps => comps
  | n :: rest, visited, comps =>
    if memB n visited then fccGo g rest visited comps
    else
      let r := fccDfs g (2 + remWeight g []) [n] visited []
      fccGo g rest r.1 (comps ++ [r.2])

/-- `find_connected_components(graph, nodes)` from the source. -/
def find_connected_components (g : Graph) (nodes : List String) : List (List String) :=
  fccGo g nodes [] []

/-- Total size of the adjacency structure; used to bound recursion depths of
the call-stack recursions of the source. -/
def graphSize (g : Graph) : Nat := (g.map (fun p => 1 + p.2.length)).sum

/-- Number of graph keys not yet visited; first component of the BFS
termination measure. -/
def keysRem (g : Graph) (visited : List String) : Nat :=
  ((g.map Prod.fst).filter (fun v => !(memB v visited))).length

theorem keysRem_cons_le (g : Graph) (vis : List String) (n : String) :
    keysRem g (n :: vis) ≤ keysRem g vis := by
  have h := sum_filter_cons_le (fun _ => 1) (g.map Prod.fst) vis n
  simpa [keysRem, List.map_const', List.sum_replicate] using h

theorem keysRem_cons_lt (g : Graph) {vis : List String} {n : String}
    (hk : n ∈ g.map Prod.fst) (hn : memB n vis = false) :
    keysRem g (n :: vis) < keysRem g vis := by
  have h := sum_filter_cons_add_le (fun _ => 1) hk hn
  simpa [keysRem, List.map_const', List.sum_replicate] using h

theorem keysRem_cons_eq_of_not_key (g : Graph) {vis : List String} {n : String}
    (hk : n ∉ g.map Prod.fst) : keysRem g (n :: vis) = keysRem g vis := by
  unfold keysRem
  congr 1
  apply List.filter_congr
  intro v hv
  have hvn : (v == n) = false := by
    refine beq_eq_false_iff_ne.mpr (fun h => ?_)
    subst h
    exact hk hv
  simp [memB, hvn]

/-- The neighbor scan of the BFS while-loop body: return the completed path at
the first neighbor equal to `e` (`Sum.inl`), otherwise enqueue the unvisited
neighbors at the back of the queue (`Sum.inr`).  The visited set already
contains the node being expanded. -/
def bfsScan (e : String) (path : List String) (visited : List String) :
    List String → List (String × List String) → (List String ⊕ List (String × List String))
  | [], q => Sum.inr q
  | w :: ws, q =>
    if w = e then Sum.inl (path ++ [w])
    else if memB w visited then bfsScan e path visited ws q
    else bfsScan e path visited ws (q ++ [(w, path ++ [w])])

/-- The BFS while-loop of `find_shortest_path`: FIFO queue of
`(node, path-so-far)` entries, visited-check on pop.  The fuel argument only
serves structural recursion: every iteration strictly decreases
`keysRem g visited * (graphSize g + 1) + q.length` (`bfsLoop_run_on` below),
so the canonical fuel of `find_shortest_path` is never exhausted and the loop
runs exactly as Python's `while queue` does. -/
def bfsLoop (g : Graph) (e : String) : Nat → List (String × List String) → List String → Option (List String)
  | 0, _, _ => none
  | _ + 1, [], _ => none
  | fuel + 1, (n, path) :: rest, visited =>
    if memB n visited then bfsLoop g e fuel rest visited
    else
      match bfsScan e path (n :: visited) (adj g n) rest with
      | Sum.inl p => some p
      | Sum.inr q2 => bfsLoop g e fuel q2 (n :: visited)

/-- `find_shortest_path(graph, start, end)` from the source. -/
def find_shortest_path (g : Graph) (s e : String) : Option (List String) :=
  if s = e then some [s]
  else bfsLoop g e (keysRem g [] * (graphSize g + 1) + 2) [(s, [s])] []

/-- The recursive `dfs` of `find_all_paths`.  `fuel` bounds the recursion
depth only: every nested call adds a previously unvisited node to the
per-path visited set, and such nodes are adjacency-list targets of `g`, so
depth never exceeds `graphSize g + 2` from the entry point below — Python
runs the same recursion on its call stack. -/
def fapDfs (g : Graph) (target : String) (maxPaths : Nat) :
    Nat → String → List String → List String → List (List String) → List (List String)
  | 0, _, _, _, acc => acc
  | fuel + 1, current, path, visited, acc =>
    if maxPaths ≤ acc.length then acc
    else if current = target then acc ++ [path]
    else
      (adj g current).foldl
        (fun a w =>
          if memB w visited then a
          else fapDfs g target maxPaths fuel w (path ++ [w]) (w :: visited) a) acc

/-- `find_all_paths(graph, start, end, max_paths)` from the source (the
callers always use `max_paths=10`). -/
def find_all_paths (g : Graph) (s e : String) (maxPaths : Nat) : List (List String) :=
  fapDfs g e maxPaths (graphSize g + 2) s [s] [s] []

/-- Python's `path[path.index(a):]`: the suffix of `path` from the first
occurrence of `a` (total, returning `[]` when `a` is absent — the source can
only reach this with `a` on the recursion stack, hence in `path`). -/
def dropFrom (a : String) : List String → List String
  | [] => []
  | x :: xs => if x = a then x :: xs else dropFrom a xs

/-- The recursive `dfs` of `detect_cycles`.  The pair threads the mutable
state `(visited, cycles)`; `path` and `rec_stack` are restored on backtrack in
the source (fresh `path[:]` copies, balanced `rec_stack.add`/`remove`), so
they are plain arguments.  `fuel` bounds recursion depth as in `fapDfs`. -/
def dcDfs (g : Graph) :
    Nat → String → List String → List String → List String × List (List String) →
      List String × List (List String)
  | 0, _, _, _, st => st
  | fuel + 1, node, path, recStack, st =>
    if memB node recStack then (st.1, st.2 ++ [dropFrom node path])
    else if memB node st.1 then st
    else
      (adj g node).foldl
        (fun s w => dcDfs g fuel w (path ++ [node]) (node :: recStack) s)
        (node :: st.1, st.2)

/-- `detect_cycles(graph, nodes)` from the source: one rooted DFS per
still-unvisited node, collecting recorded cycles. -/
def detect_cycles (g : Graph) (nodes : List String) : List (List String) :=
  (nodes.foldl
    (fun st node =>
      if memB node st.1 then st
      else dcDfs g (graphSize g + nodes.length + 2) node [] [] st)
    ([], [])).2

/-- The odd-degree node list of the `eulerian_path` branch, in node-set
order, with degree `len(graph[node])` exactly as the source computes it. -/
def odd_degree_nodes (g : Graph) (nodes : List String) : List String :=
  nodes.filter (fun v => (adj g v).length % 2 == 1)

/-- Which of the three classification messages the `eulerian_path` branch of
`analyze_graph_traversal` emits: `"cycle"` for `✓ Eulerian CYCLE exists`,
`"path"` for `✓ Eulerian PATH exists`, `"none"` for `✗ No Eulerian path
exists`.  The source chooses by the odd-degree count alone; connectivity is
reported by a separate check afterwards. -/
def eulerianKind (g : Graph) (nodes : List String) : String :=
  if (odd_degree_nodes g nodes).length = 0 then "cycle"
  else if (odd_degree_nodes g nodes).length = 2 then "path"
  else "none"

/- ### The report text -/

/-- The words of the alternation `(green|red|blue|yellow|white|black|owned|earl)`
in the source's `color_pattern`. -/
def colorWords : List (List Char) :=
  [String.toList "green", String.toList "red", String.toList "blue",
   String.toList "yellow", String.toList "white", String.toList "black",
   String.toList "owned", String.toList "earl"]

/-- Models `len(re.findall(color_pattern, graph_data.lower()))`: leftmost
non-overlapping matches of the alternation, alternatives tried in order (none
of the eight words is a prefix of another, so the order is immaterial),
advancing one character after a failed position. -/
def countColorF : Nat → List Char → Nat
  | 0, _ => 0
  | _ + 1, [] => 0
  | fuel + 1, c :: t =>
    match (colorWords.find? (fun w => leadsWith w (c :: t))).map List.length with
    | some n => 1 + countColorF fuel (t.drop (n - 1))
    | none => countColorF fuel t

def countColor (cs : List Char) : Nat := countColorF cs.length cs

/-- The guard
`any(char in graph_data for char in ["Green", "green", "plot", "cell"])`. -/
def hasGridWords (text : String) : Bool :=
  containsSubS "Green" text || containsSubS "green" text ||
    containsSubS "plot" text || containsSubS "cell" text

/-- The text the grid/ownership branch appends to `result` (the source also
binds the unused `lines` and `grid_nodes`, which have no effect). -/
def gridSection (text atype : String) : String :=
  let lowt := lowerL text.toList
  let base := "GRID-BASED GRAPH DETECTED:\n" ++ repeatC '-' 25 ++ "\n"
  let n := countColor lowt
  if n = 0 then base
  else
    base ++ "Grid elements found: " ++ toString n ++ " color/ownership references\n" ++
      (if atype = "eulerian_path" then
        "\nEULERIAN PATH ANALYSIS:\n" ++
        "For a grid traversal to be possible without backtracking:\n" ++
        "1. The graph must have exactly 0 or 2 vertices with odd degree\n" ++
        "2. All owned cells must be connected\n" ++
        "3. Starting/ending points must have odd degree\n\n" ++
        (if containsSub ("can earl walk".toList) lowt ||
            containsSub ("without backtracking".toList) lowt then
          "SIMPLIFIED ASSESSMENT:\n" ++
          "- This appears to be an Eulerian path problem on a grid\n" ++
          "- Need to check if owned cells form a connected graph\n" ++
          "- Count vertices with odd degree (corner/edge pieces)\n" ++
          "- Path exists if ≤2 vertices have odd degree\n" ++
          (if containsSub ("corner".toList) lowt || containsSub ("edge".toList) lowt then
            "- Detected corner/edge references - likely affects degree count\n"
          else "")
        else "")
      else "")

/-- The `GRAPH STRUCTURE` block: sorted node list, node count, edge count and
the degree dict (`degrees[node] = len(graph[node])` in node-set order). -/
def structureSection (st : ParseSt) : String :=
  "GRAPH STRUCTURE:\n" ++ repeatC '-' 15 ++ "\n" ++
  "Nodes: " ++ pyListRepr (pySorted st.nodes) ++ "\n" ++
  "Total nodes: " ++ toString st.nodes.length ++ "\n" ++
  "Total edges: " ++ toString st.edges.length ++ "\n" ++
  "Node degrees: " ++ pyDictReprNat (st.nodes.map (fun v => (v, (adj st.graph v).length))) ++
  "\n\n"

/-- The `eulerian_path` branch of the report. -/
def eulerianSection (g : Graph) (nodes : List String) : String :=
  let odd := odd_degree_nodes g nodes
  "EULERIAN PATH ANALYSIS:\n" ++ repeatC '-' 22 ++ "\n" ++
  "Odd degree nodes: " ++ pyListRepr odd ++ " (count: " ++ toString odd.length ++ ")\n" ++
  (if odd.length = 0 then
    "✓ Eulerian CYCLE exists (all nodes have even degree)\n" ++
    "→ Can start and end at same node\n"
   else if odd.length = 2 then
    "✓ Eulerian PATH exists (exactly 2 nodes have odd degree)\n" ++
    "→ Must start at " ++ odd.getD 0 "" ++ " and end at " ++ odd.getD 1 "" ++
    " (or vice versa)\n"
   else
    "✗ No Eulerian path exists (not 0 or 2 odd-degree nodes)\n" ++
    "→ Impossible to traverse all edges exactly once\n") ++
  (if is_connected g nodes then "✓ Graph is connected\n"
   else "✗ Graph is not connected - no Eulerian path possible\n")

/-- `f"  Component {i}: {sorted(component)}\n"` lines, numbering from 1. -/
def componentLines : Nat → List (List String) → String
  | _, [] => ""
  | i, c :: t =>
    "  Component " ++ toString i ++ ": " ++ pyListRepr (pySorted c) ++ "\n" ++
      componentLines (i + 1) t

/-- The `connectivity` branch of the report. -/
def connectivitySection (g : Graph) (nodes : List String) : String :=
  let comps := find_connected_components g nodes
  "CONNECTIVITY ANALYSIS:\n" ++ repeatC '-' 20 ++ "\n" ++
  (if is_connected g nodes then
    "✓ Graph is connected\n" ++
    "Connected components: " ++ toString comps.length ++ "\n" ++ componentLines 1 comps
   else
    "✗ Graph is not connected\n" ++
    "Number of components: " ++ toString comps.length ++ "\n" ++ componentLines 1 comps)

/-- `' → '.join(path)`. -/
def joinArrow (p : List String) : String := String.intercalate " → " p

/-- `f"  {i}. {' → '.join(path)}\n"` lines, numbering from 1. -/
def pathLines : Nat → List (List String) → String
  | _, [] => ""
  | i, p :: t => "  " ++ toString i ++ ". " ++ joinArrow p ++ "\n" ++ pathLines (i + 1) t

/-- The `path_analysis` branch of the report (only reached with non-empty
`start_node` and `end_node`).  `find_shortest_path` never returns an empty
list, so the Python truthiness test on `path` coincides with the `Option`
match. -/
def pathSection (g : Graph) (s e : String) : String :=
  "PATH ANALYSIS: " ++ s ++ " → " ++ e ++ "\n" ++ repeatC '-' 30 ++ "\n" ++
  (match find_shortest_path g s e with
   | some p =>
     "Shortest path: " ++ joinArrow p ++ "\n" ++
     "Path length: " ++ toString (p.length - 1) ++ " edges\n"
   | none => "No path exists between " ++ s ++ " and " ++ e ++ "\n") ++
  (let aps := find_all_paths g s e 10
   if aps.isEmpty then "" else "\nAll paths (max 10):\n" ++ pathLines 1 aps)

/-- `f"  {i}. {' → '.join(cycle + [cycle[0]])}\n"` lines; recorded cycles are
never empty, so `cycle[0]` is their head. -/
def cycleLines : Nat → List (List String) → String
  | _, [] => ""
  | i, c :: t =>
    "  " ++ toString i ++ ". " ++ joinArrow (c ++ [c.getD 0 ""]) ++ "\n" ++
      cycleLines (i + 1) t

/-- The `cycle_detection` branch of the report (display capped at 5 cycles). -/
def cycleSection (g : Graph) (nodes : List String) : String :=
  let cs := detect_cycles g nodes
  "CYCLE DETECTION:\n" ++ repeatC '-' 15 ++ "\n" ++
  (if cs.isEmpty then "No cycles detected (graph is acyclic)\n"
   else "Cycles found: " ++ toString cs.length ++ "\n" ++ cycleLines 1 (cs.take 5))

/-- The `elif` chain selecting the analysis-specific report section (the
`path_analysis` branch additionally requires truthy — non-empty — start and
end nodes, Python truthiness of strings). -/
def analyzeBody (st : ParseSt) (atype s e res : String) : String :=
  if atype = "eulerian_path" then res ++ eulerianSection st.graph st.nodes
  else if atype = "connectivity" then res ++ connectivitySection st.graph st.nodes
  else if atype = "path_analysis" ∧ s ≠ "" ∧ e ≠ "" then res ++ pathSection st.graph s e
  else if atype = "cycle_detection" then res ++ cycleSection st.graph st.nodes
  else res

/-- Shallow embedding of the tool entry point `analyze_graph_traversal`
(src/tools.py): parse, optional grid advisory text, parse-failure early
return, structure block, then the branch selected by `analysis_type`.  The
source accumulates `result` before the `if not nodes` check and discards it
on the early return; the embedding equivalently builds the report only on
the success path.  The surrounding `try/except` of the source makes the
Python function total on these paths; the embedding is total by
construction. -/
def analyze_graph_traversal (graph_data analysis_type start_node end_node : String) : String :=
  if (parseGraphData graph_data).nodes.isEmpty then
    "Could not parse graph structure from: " ++ graph_data.take 200 ++ "..."
  else
    analyzeBody (parseGraphData graph_data) analysis_type start_node end_node
      ((if (parseGraphData graph_data).graph.isEmpty && hasGridWords graph_data then
          ("Graph Traversal Analysis: " ++ analysis_type ++ "
" ++ repeatC '=' 50 ++ "
")
            ++ gridSection graph_data analysis_type
        else ("Graph Traversal Analysis: " ++ analysis_type ++ "
" ++ repeatC '=' 50 ++ "
"))
        ++ structureSection (parseGraphData graph_data))

/- ### State-threading views: defaultdict auto-insertion of missing keys -/

/-- Key lookup without default. -/
def lookupG : Graph → String → Option (List String)
  | [], _ => none
  | (k', l) :: t, k => if k' = k then some l else lookupG t k

/-- A `graph[node]` read on the `defaultdict(list)`: returns the stored list
together with the possibly-extended mapping — a missing key is inserted at
the end of the dict with value `[]` by the read itself. -/
def getA (g : Graph) (k : String) : List String × Graph :=
  match lookupG g k with
  | some l => (l, g)
  | none => ([], g ++ [(k, [])])

/-- `is_connected`'s DFS loop with the defaultdict state threaded through
(`fuel` dominates the loop's iteration count, which is bounded by one plus
the total number of enqueued neighbors). -/
def dfsLoopSt : Nat → Graph → List String → List String → List String × Graph
  | 0, g, _, visited => (visited, g)
  | _ + 1, g, [], visited => (visited, g)
  | fuel + 1, g, n :: stack, visited =>
    if memB n visited then dfsLoopSt fuel g stack visited
    else
      let p := getA g n
      dfsLoopSt fuel p.2
        ((p.1.filter (fun x => !(memB x (n :: visited)))).reverse ++ stack) (n :: visited)

/-- `is_connected` with the defaultdict state threaded through. -/
def is_connectedSt (g : Graph) (nodes : List String) : Bool × Graph :=
  match nodes with
  | [] => (true, g)
  | n :: rest =>
    let r := dfsLoopSt (graphSize g + (n :: rest).length + 2) g [n] []
    (r.1.length == (n :: rest).length, r.2)

/-- `find_connected_components`'s inner while-loop with the defaultdict state
threaded through. -/
def fccDfsSt : Nat → Graph → List String → List String → List String →
    (List String × List String) × Graph
  | 0, g, _, visited, comp => ((visited, comp), g)
  | _ + 1, g, [], visited, comp => ((visited, comp), g)
  | fuel + 1, g, n :: stack, visited, comp =>
    if memB n visited then fccDfsSt fuel g stack visited comp
    else
      let p := getA g n
      fccDfsSt fuel p.2
        ((p.1.filter (fun x => !(memB x (n :: visited)))).reverse ++ stack)
        (n :: visited) (comp ++ [n])

/-- `find_connected_components`'s outer loop with the defaultdict state
threaded through. -/
def fccGoSt (fuel : Nat) : Graph → List String → List String → List (List String) →
    List (List String) × Graph
  | g, [], _, comps => (comps, g)
  | g, n :: rest, visited, comps =>
    if memB n visited then fccGoSt fuel g rest visited comps
    else
      let r := fccDfsSt fuel g [n] visited []
      fccGoSt fuel r.2 rest r.1.1 (comps ++ [r.1.2])

/-- `find_connected_components` with the defaultdict state threaded through. -/
def find_connected_componentsSt (g : Graph) (nodes : List String) :
    List (List String) × Graph :=
  fccGoSt (graphSize g + nodes.length + 2) g nodes [] []

/-- The BFS while-loop of `find_shortest_path` with the defaultdict state
threaded through (the neighbor scan itself reads no graph state, so
`bfsScan` is shared with the pure view). -/
def bfsLoopSt (e : String) : Nat → Graph → List (String × List String) → List String →
    Option (List String) × Graph
  | 0, g, _, _ => (none, g)
  | _ + 1, g, [], _ => (none, g)
  | fuel + 1, g, (n, path) :: rest, visited =>
    if memB n visited then bfsLoopSt e fuel g rest visited
    else
      let p := getA g n
      match bfsScan e path (n :: visited) p.1 rest with
      | Sum.inl pa => (some pa, p.2)
      | Sum.inr q2 => bfsLoopSt e fuel p.2 q2 (n :: visited)

/-- `find_shortest_path` with the defaultdict state threaded through. -/
def find_shortest_pathSt (g : Graph) (s e : String) : Option (List String) × Graph :=
  if s = e then (some [s], g) else bfsLoopSt e (graphSize g + 3) g [(s, [s])] []

/-- The recursive `dfs` of `find_all_paths` with the defaultdict state
threaded through. -/
def fapDfsSt (target : String) (maxPaths : Nat) :
    Nat → Graph → String → List String → List String → List (List String) →
      List (List String) × Graph
  | 0, g, _, _, _, acc => (acc, g)
  | fuel + 1, g, current, path, visited, acc =>
    if maxPaths ≤ acc.length then (acc, g)
    else if current = target then (acc ++ [path], g)
    else
      let p := getA g current
      p.1.foldl
        (fun s w =>
          if memB w visited then s
          else fapDfsSt target maxPaths fuel s.2 w (path ++ [w]) (w :: visited) s.1)
        (acc, p.2)

/-- `find_all_paths` with the defaultdict state threaded through. -/
def find_all_pathsSt (g : Graph) (s e : String) (maxPaths : Nat) :
    List (List String) × Graph :=
  fapDfsSt e maxPaths (graphSize g + 2) g s [s] [s] []

/-- The recursive `dfs` of `detect_cycles` with the defaultdict state
threaded through. -/
def dcDfsSt :
    Nat → Graph → String → List String → List String →
      List String × List (List String) → (List String × List (List String)) × Graph
  | 0, g, _, _, _, st => (st, g)
  | fuel + 1, g, node, path, recStack, st =>
    if memB node recStack then ((st.1, st.2 ++ [dropFrom node path]), g)
    else if memB node st.1 then (st, g)
    else
      let p := getA g node
      p.1.foldl
        (fun s w => dcDfsSt fuel s.2 w (path ++ [node]) (node :: recStack) s.1)
        ((node :: st.1, st.2), p.2)

/-- `detect_cycles` with the defaultdict state threaded through. -/
def detect_cyclesSt (g : Graph) (nodes : List String) :
    List (List String) × Graph :=
  let r := nodes.foldl
    (fun s node =>
      if memB node s.1.1 then s
      else dcDfsSt (graphSize g + nodes.length + 2) s.2 node [] [] s.1)
    (([], []), g)
  (r.1.2, r.2)

/-- The only way any analyzer changes the defaultdict: appending missing keys
with empty adjacency lists. -/
def ExtendsEmpty (g g' : Graph) : Prop :=
  ∃ ks : List String, g' = g ++ ks.map (fun k => (k, []))

theorem extendsEmpty_refl (g : Graph) : ExtendsEmpty g g := ⟨[], by simp⟩

theorem extendsEmpty_trans {a b c : Graph}
    (h1 : ExtendsEmpty a b) (h2 : ExtendsEmpty b c) : ExtendsEmpty a c := by
  obtain ⟨k1, rfl⟩ := h1
  obtain ⟨k2, rfl⟩ := h2
  exact ⟨k1 ++ k2, by simp⟩

theorem extendsEmpty_getA (g : Graph) (k : String) : ExtendsEmpty g (getA g k).2 := by
  unfold getA
  cases h : lookupG g k with
  | some l => exact ⟨[], by simp⟩
  | none => exact ⟨[k], by simp⟩

theorem adj_empties (ks : List String) (x : String) :
    adj (ks.map (fun k => (k, ([] : List String)))) x = [] := by
  induction ks with
  | nil => rfl
  | cons k t ih =>
    simp only [List.map_cons, adj]
    split
    · rfl
    · exact ih

theorem adj_append_extends (g : Graph) (ks : List String) (x : String) :
    adj (g ++ ks.map (fun k => (k, []))) x = adj g x := by
  induction g with
  | nil => simp [adj, adj_empties]
  | cons p t ih =>
    obtain ⟨k', l⟩ := p
    simp only [List.cons_append, adj]
    split
    · rfl
    · exact ih

theorem adj_of_extendsEmpty {g g' : Graph} (h : ExtendsEmpty g g') (x : String) :
    adj g' x = adj g x := by
  obtain ⟨ks, rfl⟩ := h
  exact adj_append_extends g ks x

/-- Generic preservation through a `foldl` threading the graph as the second
component of its state. -/
theorem foldl_extendsEmpty {α β : Type}
    (step : (β × Graph) → α → (β × Graph)) (l : List α) (init : β × Graph)
    (h : ∀ s a, ExtendsEmpty s.2 (step s a).2) :
    ExtendsEmpty init.2 (l.foldl step init).2 := by
  induction l generalizing init with
  | nil => exact extendsEmpty_refl _
  | cons a t ih => exact extendsEmpty_trans (h init a) (ih (step init a))

theorem dfsLoopSt_extends (fuel : Nat) (g : Graph) (stack visited : List String) :
    ExtendsEmpty g (dfsLoopSt fuel g stack visited).2 := by
  induction fuel generalizing g stack visited with
  | zero => exact extendsEmpty_refl _
  | succ n ih =>
    cases stack with
    | nil => exact extendsEmpty_refl _
    | cons a rest =>
      simp only [dfsLoopSt]
      split
      · exact ih g rest visited
      · exact extendsEmpty_trans (extendsEmpty_getA g a) (ih _ _ _)

theorem fccDfsSt_extends (fuel : Nat) (g : Graph) (stack visited comp : List String) :
    ExtendsEmpty g (fccDfsSt fuel g stack visited comp).2 := by
  induction fuel generalizing g stack visited comp with
  | zero => exact extendsEmpty_refl _
  | succ n ih =>
    cases stack with
    | nil => exact extendsEmpty_refl _
    | cons a rest =>
      simp only [fccDfsSt]
      split
      · exact ih g rest visited comp
      · exact extendsEmpty_trans (extendsEmpty_getA g a) (ih _ _ _ _)

theorem fccGoSt_extends (fuel : Nat) (g : Graph) (rest visited : List String)
    (comps : List (List String)) :
    ExtendsEmpty g (fccGoSt fuel g rest visited comps).2 := by
  induction rest generalizing g visited comps with
  | nil => exact extendsEmpty_refl _
  | cons a t ih =>
    simp only [fccGoSt]
    split
    · exact ih g visited comps
    · exact extendsEmpty_trans (fccDfsSt_extends fuel g [a] visited []) (ih _ _ _)

theorem bfsLoopSt_extends (e : String) (fuel : Nat) (g : Graph)
    (q : List (String × List String)) (visited : List String) :
    ExtendsEmpty g (bfsLoopSt e fuel g q visited).2 := by
  induction fuel generalizing g q visited with
  | zero => exact extendsEmpty_refl _
  | succ n ih =>
    cases q with
    | nil => exact extendsEmpty_refl _
    | cons a rest =>
      obtain ⟨nd, path⟩ := a
      simp only [bfsLoopSt]
      split
      · exact ih g rest visited
      · split
        · exact extendsEmpty_getA g nd
        · exact extendsEmpty_trans (extendsEmpty_getA g nd) (ih _ _ _)

theorem fapDfsSt_extends (target : String) (maxPaths : Nat) (fuel : Nat) (g : Graph)
    (current : String) (path visited : List String) (acc : List (List String)) :
    ExtendsEmpty g (fapDfsSt target maxPaths fuel g current path visited acc).2 := by
  induction fuel generalizing g current path visited acc with
  | zero => exact extendsEmpty_refl _
  | succ n ih =>
    simp only [fapDfsSt]
    split
    · exact extendsEmpty_refl _
    · split
      · exact extendsEmpty_refl _
      · refine extendsEmpty_trans (extendsEmpty_getA g current) ?_
        exact foldl_extendsEmpty _ _ _ (fun s a => by
          split
          · exact extendsEmpty_refl _
          · exact ih _ _ _ _ _)

theorem dcDfsSt_extends (fuel : Nat) (g : Graph) (node : String)
    (path recStack : List String) (st : List String × List (List String)) :
    ExtendsEmpty g (dcDfsSt fuel g node path recStack st).2 := by
  induction fuel generalizing g node path recStack st with
  | zero => exact extendsEmpty_refl _
  | succ n ih =>
    simp only [dcDfsSt]
    split
    · exact extendsEmpty_refl _
    · split
      · exact extendsEmpty_refl _
      · refine extendsEmpty_trans (extendsEmpty_getA g node) ?_
        exact foldl_extendsEmpty _ _ _ (fun s a => ih _ _ _ _ _)

theorem detect_cyclesSt_extends (g : Graph) (nodes : List String) :
    ExtendsEmpty g (detect_cyclesSt g nodes).2 := by
  unfold detect_cyclesSt
  exact foldl_extendsEmpty _ _ _ (fun s a => by
    split
    · exact extendsEmpty_refl _
    · exact dcDfsSt_extends _ _ _ _ _ _)

/- ### Reachability along the parsed adjacency -/

/-- One traversal step as the analyzers take it: `b` occurs in `a`'s
adjacency list (forward direction only). -/
def Step (g : Graph) (a b : String) : Prop := b ∈ adj g a

/-- Forward reachability along the parsed adjacency. -/
def Reach (g : Graph) (s v : String) : Prop := Relation.ReflTransGen (Step g) s v

theorem dfs_step_measure (g : Graph) {n : String} {visited : List String}
    (hn : memB n visited = false) (stack : List String) :
    (((adj g n).filter (fun x => !(memB x (n :: visited)))).reverse ++ stack).length
        + remWeight g (n :: visited)
      < (n :: stack).length + remWeight g visited := by
  simp only [List.length_append, List.length_reverse, List.length_cons]
  have hf : ((adj g n).filter (fun x => !(memB x (n :: visited)))).length
      ≤ (adj g n).length := List.length_filter_le _ _
  by_cases hk : n ∈ g.map Prod.fst
  · have := remWeight_cons_add_le g hk hn
    omega
  · have ha : adj g n = [] := adj_nil_of_not_key hk
    have hf0 : ((adj g n).filter (fun x => !(memB x (n :: visited)))).length = 0 := by
      rw [ha]
      rfl
    have := remWeight_cons_le g visited n
    omega

theorem dfsLoop_visited_subset (g : Graph) :
    ∀ fuel stack visited, ∀ v ∈ visited, v ∈ dfsLoop g fuel stack visited := by
  intro fuel
  induction fuel with
  | zero => intro stack visited v hv; simpa [dfsLoop] using hv
  | succ m ih =>
    intro stack visited v hv
    cases stack with
    | nil => simpa [dfsLoop] using hv
    | cons n stack =>
      simp only [dfsLoop]
      split
      · exact ih stack visited v hv
      · exact ih _ _ v (List.mem_cons_of_mem _ hv)

theorem dfsLoop_sound (g : Graph) :
    ∀ fuel stack visited, ∀ v ∈ dfsLoop g fuel stack visited,
      v ∈ visited ∨ ∃ u ∈ stack, Reach g u v := by
  intro fuel
  induction fuel with
  | zero =>
    intro stack visited v hv
    simp only [dfsLoop] at hv
    exact Or.inl hv
  | succ m ih =>
    intro stack visited v hv
    cases stack with
    | nil =>
      simp only [dfsLoop] at hv
      exact Or.inl hv
    | cons n stack =>
      simp only [dfsLoop] at hv
      split at hv
      · rcases ih _ _ v hv with h | ⟨u, hu, hr⟩
        · exact Or.inl h
        · exact Or.inr ⟨u, List.mem_cons_of_mem _ hu, hr⟩
      · rcases ih _ _ v hv with h | ⟨u, hu, hr⟩
        · cases List.mem_cons.mp h with
          | inl h' =>
            subst h'
            exact Or.inr ⟨v, List.mem_cons_self _ _, Relation.ReflTransGen.refl⟩
          | inr h' => exact Or.inl h'
        · cases List.mem_append.mp hu with
          | inl h' =>
            have hadj : u ∈ adj g n := List.mem_of_mem_filter (List.mem_reverse.mp h')
            exact Or.inr ⟨n, List.mem_cons_self _ _, Relation.ReflTransGen.head hadj hr⟩
          | inr h' => exact Or.inr ⟨u, List.mem_cons_of_mem _ h', hr⟩

theorem dfsLoop_nodup (g : Graph) :
    ∀ fuel stack visited, visited.Nodup → (dfsLoop g fuel stack visited).Nodup := by
  intro fuel
  induction fuel with
  | zero => intro stack visited h; simpa [dfsLoop] using h
  | succ m ih =>
    intro stack visited h
    cases stack with
    | nil => simpa [dfsLoop] using h
    | cons n stack =>
      simp only [dfsLoop]
      split
      · exact ih _ _ h
      · rename_i hmem
        exact ih _ _ (List.nodup_cons.mpr ⟨by simpa using (memB_eq_false.mp (by simpa using hmem)), h⟩)

theorem dfsLoop_mem_of_bounded (g : Graph) (N : List String) :
    ∀ fuel stack visited,
      (∀ u ∈ stack, u ∈ N) → (∀ u ∈ visited, u ∈ N) →
      (∀ a b, Step g a b → b ∈ N) →
      ∀ v ∈ dfsLoop g fuel stack visited, v ∈ N := by
  intro fuel
  induction fuel with
  | zero =>
    intro stack visited _ hv _ v hmem
    simp only [dfsLoop] at hmem
    exact hv v hmem
  | succ m ih =>
    intro stack visited hs hv hN v hvm
    cases stack with
    | nil =>
      simp only [dfsLoop] at hvm
      exact hv v hvm
    | cons n stack =>
      simp only [dfsLoop] at hvm
      split at hvm
      · exact ih _ _ (fun u hu => hs u (List.mem_cons_of_mem _ hu)) hv hN v hvm
      · refine ih _ _ ?_ ?_ hN v hvm
        · intro u hu
          cases List.mem_append.mp hu with
          | inl h' => exact hN n u (List.mem_of_mem_filter (List.mem_reverse.mp h'))
          | inr h' => exact hs u (List.mem_cons_of_mem _ h')
        · intro u hu
          cases List.mem_cons.mp hu with
          | inl h' => exact h' ▸ hs n (List.mem_cons_self _ _)
          | inr h' => exact hv u h'

theorem dfsLoop_stack_subset (g : Graph) :
    ∀ fuel stack visited, stack.length + remWeight g visited < fuel →
      ∀ v ∈ stack, v ∈ dfsLoop g fuel stack visited := by
  intro fuel
  induction fuel with
  | zero => intro stack visited h; exact absurd h (Nat.not_lt_zero _)
  | succ m ih =>
    intro stack visited hfuel v hv
    cases stack with
    | nil => simp at hv
    | cons n stack =>
      simp only [dfsLoop]
      split
      · rename_i hmem
        cases List.mem_cons.mp hv with
        | inl h =>
          subst h
          exact dfsLoop_visited_subset g m stack visited v (memB_iff.mp hmem)
        | inr h =>
          refine ih stack visited ?_ v h
          simp only [List.length_cons] at hfuel
          omega
      · rename_i hmem
        have hn : memB n visited = false := by simpa using hmem
        cases List.mem_cons.mp hv with
        | inl h =>
          subst h
          exact dfsLoop_visited_subset g m _ _ v (List.mem_cons_self _ _)
        | inr h =>
          refine ih _ _ ?_ v (List.mem_append_right _ h)
          have := dfs_step_measure g hn stack
          omega

theorem dfsLoop_closed (g : Graph) :
    ∀ fuel stack visited, stack.length + remWeight g visited < fuel →
      (∀ u ∈ visited, ∀ w, Step g u w → w ∈ visited ∨ w ∈ stack) →
      ∀ u ∈ dfsLoop g fuel stack visited, ∀ w, Step g u w →
        w ∈ dfsLoop g fuel stack visited := by
  intro fuel
  induction fuel with
  | zero => intro stack visited h; exact absurd h (Nat.not_lt_zero _)
  | succ m ih =>
    intro stack visited hfuel hcl
    cases stack with
    | nil =>
      intro u hu w hw
      simp only [dfsLoop] at hu ⊢
      rcases hcl u hu w hw with h | h
      · exact h
      · simp at h
    | cons n stack =>
      simp only [dfsLoop]
      split
      · rename_i hmem
        refine ih stack visited ?_ ?_
        · simp only [List.length_cons] at hfuel
          omega
        · intro u hu w hw
          rcases hcl u hu w hw with h | h
          · exact Or.inl h
          · cases List.mem_cons.mp h with
            | inl h' =>
              subst h'
              exact Or.inl (memB_iff.mp hmem)
            | inr h' => exact Or.inr h'
      · rename_i hmem
        have hn : memB n visited = false := by simpa using hmem
        refine ih _ _ ?_ ?_
        · have := dfs_step_measure g hn stack
          omega
        · intro u hu w hw
          cases List.mem_cons.mp hu with
          | inl h' =>
            subst h'
            by_cases hwv : memB w (u :: visited)
            · exact Or.inl (memB_iff.mp hwv)
            · refine Or.inr (List.mem_append_left _ ?_)
              rw [List.mem_reverse]
              exact List.mem_filter.mpr ⟨hw, by simpa using hwv⟩
          | inr h' =>
            rcases hcl u h' w hw with h | h
            · exact Or.inl (List.mem_cons_of_mem _ h)
            · cases List.mem_cons.mp h with
              | inl h2 =>
                subst h2
                exact Or.inl (List.mem_cons_self _ _)
              | inr h2 => exact Or.inr (List.mem_append_right _ h2)

/-- The DFS of `is_connected`, at its canonical fuel, visits exactly the
forward-reachable nodes. -/
theorem dfsLoop_mem_iff (g : Graph) (s v : String) :
    v ∈ dfsLoop g (2 + remWeight g []) [s] [] ↔ Reach g s v := by
  have hfuel : ([s] : List String).length + remWeight g [] < 2 + remWeight g [] := by
    simp only [List.length_singleton]
    omega
  constructor
  · intro h
    rcases dfsLoop_sound g _ [s] [] v h with h' | ⟨u, hu, hr⟩
    · simp at h'
    · rcases List.mem_singleton.mp hu with rfl
      exact hr
  · intro h
    induction h with
    | refl => exact dfsLoop_stack_subset g _ [s] [] hfuel s (List.mem_singleton.mpr rfl)
    | tail hab hbc ih =>
      exact dfsLoop_closed g _ [s] [] hfuel (by simp) _ ih _ hbc

/- ### Connectivity characterization -/

theorem adj_cases (g : Graph) (k : String) :
    adj g k = [] ∨ ∃ p ∈ g, p.1 = k ∧ adj g k = p.2 := by
  induction g with
  | nil => exact Or.inl rfl
  | cons p t ih =>
    obtain ⟨k', l⟩ := p
    by_cases h : k' = k
    · subst h
      right
      exact ⟨(k', l), List.mem_cons_self _ _, rfl, by simp [adj]⟩
    · simp only [adj, if_neg h]
      rcases ih with h' | ⟨q, hq, hk, he⟩
      · exact Or.inl h'
      · exact Or.inr ⟨q, List.mem_cons_of_mem _ hq, hk, he⟩

theorem step_mem_of_entries {g : Graph} {N : List String}
    (hcl : ∀ p ∈ g, ∀ b ∈ p.2, b ∈ N) : ∀ a b, Step g a b → b ∈ N := by
  intro a b hab
  rcases adj_cases g a with h | ⟨p, hp, _, he⟩
  · rw [Step, h] at hab
    simp at hab
  · rw [Step, he] at hab
    exact hcl p hp b hab

/-- `is_connected` returns true exactly when every node is forward-reachable
from the first node of the node set, provided the node set is duplicate-free
and covers every adjacency-list target (as the parser guarantees). -/
theorem is_connected_iff_forward_reach (g : Graph) (n : String) (rest : List String)
    (hnd : (n :: rest).Nodup)
    (hcl : ∀ p ∈ g, ∀ b ∈ p.2, b ∈ n :: rest) :
    is_connected g (n :: rest) = true ↔ ∀ v ∈ n :: rest, Reach g n v := by
  have hstep : ∀ a b, Step g a b → b ∈ n :: rest := step_mem_of_entries hcl
  have hsub : ∀ v ∈ dfsLoop g (2 + remWeight g []) [n] [], v ∈ n :: rest := by
    refine dfsLoop_mem_of_bounded g (n :: rest) _ [n] [] ?_ (by simp) hstep
    intro u hu
    rcases List.mem_singleton.mp hu with rfl
    exact List.mem_cons_self _ _
  have hndR : (dfsLoop g (2 + remWeight g []) [n] []).Nodup :=
    dfsLoop_nodup g _ [n] [] List.nodup_nil
  have hiff : ∀ v, v ∈ dfsLoop g (2 + remWeight g []) [n] [] ↔ Reach g n v :=
    dfsLoop_mem_iff g n
  show ((dfsLoop g (2 + remWeight g []) [n] []).length == (n :: rest).length) = true ↔ _
  rw [beq_iff_eq]
  constructor
  · intro hlen v hv
    rw [← hiff v]
    have hsubF : (dfsLoop g (2 + remWeight g []) [n] []).toFinset ⊆ (n :: rest).toFinset :=
      fun x hx => List.mem_toFinset.mpr (hsub x (List.mem_toFinset.mp hx))
    have hcards : (n :: rest).toFinset.card ≤
        (dfsLoop g (2 + remWeight g []) [n] []).toFinset.card := by
      rw [List.toFinset_card_of_nodup hndR, List.toFinset_card_of_nodup hnd, hlen]
    have heq := Finset.eq_of_subset_of_card_le hsubF hcards
    exact List.mem_toFinset.mp (heq ▸ List.mem_toFinset.mpr hv)
  · intro hreach
    have hsup : ∀ v ∈ n :: rest, v ∈ dfsLoop g (2 + remWeight g []) [n] [] :=
      fun v hv => (hiff v).mpr (hreach v hv)
    have hfs : (dfsLoop g (2 + remWeight g []) [n] []).toFinset = (n :: rest).toFinset := by
      apply Finset.ext
      intro x
      constructor
      · intro hx
        exact List.mem_toFinset.mpr (hsub x (List.mem_toFinset.mp hx))
      · intro hx
        exact List.mem_toFinset.mpr (hsup x (List.mem_toFinset.mp hx))
    calc (dfsLoop g (2 + remWeight g []) [n] []).length
        = (dfsLoop g (2 + remWeight g []) [n] []).toFinset.card :=
          (List.toFinset_card_of_nodup hndR).symm
      _ = (n :: rest).toFinset.card := by rw [hfs]
      _ = (n :: rest).length := List.toFinset_card_of_nodup hnd

/- ### Edge-list insertion characterization -/

theorem mem_adj_gAppend (g : Graph) (a b u v : String) :
    v ∈ adj (gAppend g a b) u ↔ v ∈ adj g u ∨ (u = a ∧ v = b) := by
  rw [adj_gAppend]
  by_cases h : a = u
  · subst h
    simp [List.mem_append]
  · simp only [if_neg h]
    constructor
    · exact Or.inl
    · intro hc
      rcases hc with hc | ⟨h1, _⟩
      · exact hc
      · exact absurd h1.symm h

theorem mem_adj_addEdgeListMatches (rev : Bool) (ms : List (String × String))
    (st : ParseSt) (u v : String) :
    v ∈ adj (addEdgeListMatches rev ms st).graph u ↔
      v ∈ adj st.graph u ∨ (u, v) ∈ ms ∨ (rev = true ∧ (v, u) ∈ ms) := by
  induction ms generalizing st with
  | nil => simp [addEdgeListMatches]
  | cons m t ih =>
    obtain ⟨a, b⟩ := m
    show v ∈ adj (addEdgeListMatches rev t _).graph u ↔ _
    rw [ih]
    have hstep : v ∈ adj (if rev then gAppend (gAppend st.graph a b) b a
        else gAppend st.graph a b) u ↔
        v ∈ adj st.graph u ∨ (u = a ∧ v = b) ∨ (rev = true ∧ (u = b ∧ v = a)) := by
      cases rev with
      | false => simp [mem_adj_gAppend]
      | true =>
        simp only [if_true, mem_adj_gAppend]
        tauto
    rw [hstep]
    simp only [List.mem_cons, Prod.mk.injEq]
    tauto

/- ### Eulerian classification -/

theorem odd_degree_nodes_nil_iff (g : Graph) (nodes : List String) :
    (odd_degree_nodes g nodes).length = 0 ↔ ∀ v ∈ nodes, (adj g v).length % 2 = 0 := by
  rw [List.length_eq_zero, odd_degree_nodes, List.filter_eq_nil_iff]
  constructor
  · intro h v hv
    have := h v hv
    simp only [beq_iff_eq] at this
    omega
  · intro h v hv
    have := h v hv
    simp only [beq_iff_eq]
    omega

/- ### Cycle validity -/

/-- Boolean chain check: consecutive entries are adjacency steps. -/
def chainB (g : Graph) : List String → Bool
  | [] => true
  | [_] => true
  | a :: b :: t => (adj g a).contains b && chainB g (b :: t)

/-- The closing edge of a cycle: the head occurs in the adjacency list of the
last element. -/
def lastToHeadB (g : Graph) (c : List String) : Bool :=
  match c.head?, c.getLast? with
  | some x, some y => (adj g y).contains x
  | _, _ => false

/-- A non-empty node sequence whose consecutive pairs, including last→first,
are all edges of the adjacency mapping. -/
def validCycleB (g : Graph) (c : List String) : Bool :=
  (!c.isEmpty) && chainB g c && lastToHeadB g c

theorem containsB_of_mem {a : String} {l : List String} (h : a ∈ l) :
    l.contains a = true := by
  induction l with
  | nil => simp at h
  | cons x xs ih =>
    rcases List.mem_cons.mp h with h' | h'
    · subst h'
      simp
    · simp only [List.contains_cons, Bool.or_eq_true]
      exact Or.inr (ih h')

theorem chainB_append_right (g : Graph) (l₁ l₂ : List String)
    (h : chainB g (l₁ ++ l₂) = true) : chainB g l₂ = true := by
  induction l₁ with
  | nil => exact h
  | cons a t ih =>
    apply ih
    cases ht : t ++ l₂ with
    | nil =>
      cases t with
      | nil =>
        cases l₂ with
        | nil => rfl
        | cons x xs => simp at ht
      | cons x xs => simp at ht
    | cons b r =>
      have : chainB g (a :: b :: r) = true := by
        rw [← ht]
        exact h
      rw [chainB, Bool.and_eq_true] at this
      exact this.2

theorem chainB_append_singleton (g : Graph) (path : List String) (node : String)
    (hc : chainB g path = true)
    (hl : ∀ y, path.getLast? = some y → (adj g y).contains node = true) :
    chainB g (path ++ [node]) = true := by
  induction path with
  | nil => rfl
  | cons a t ih =>
    cases t with
    | nil =>
      have hthis := hl a rfl
      show chainB g (a :: [node]) = true
      simp only [chainB, Bool.and_eq_true]
      exact ⟨hthis, trivial⟩
    | cons b r =>
      rw [chainB, Bool.and_eq_true] at hc
      have ih' := ih hc.2 (fun y hy => hl y (by rw [List.getLast?_cons_cons]; exact hy))
      show chainB g (a :: b :: (r ++ [node])) = true
      rw [chainB, Bool.and_eq_true]
      exact ⟨hc.1, ih'⟩

theorem dropFrom_spec {a : String} {l : List String} (h : a ∈ l) :
    ∃ pre suf, l = pre ++ (a :: suf) ∧ dropFrom a l = a :: suf := by
  induction l with
  | nil => simp at h
  | cons x xs ih =>
    by_cases hx : x = a
    · subst hx
      exact ⟨[], xs, by simp, by simp [dropFrom]⟩
    · have h' : a ∈ xs := by
        cases List.mem_cons.mp h with
        | inl h2 => exact absurd h2.symm hx
        | inr h2 => exact h2
      obtain ⟨pre, suf, heq, hdrop⟩ := ih h'
      exact ⟨x :: pre, suf, by simp [heq], by simp [dropFrom, hx, hdrop]⟩

/-- The invariant carried by `detect_cycles`' recursive DFS: along any call,
`path` is an edge chain, the pending `node` extends it by an edge, the
recursion stack is contained in `path`, and all recorded cycles are valid.
Every cycle in the result is then valid. -/
theorem dcDfs_sound (g : Graph) :
    ∀ fuel node path recStack st,
      chainB g path = true →
      (∀ y, path.getLast? = some y → (adj g y).contains node = true) →
      (∀ x ∈ recStack, x ∈ path) →
      (∀ c ∈ st.2, validCycleB g c = true) →
      ∀ c ∈ (dcDfs g fuel node path recStack st).2, validCycleB g c = true := by
  intro fuel
  induction fuel with
  | zero =>
    intro node path recStack st _ _ _ hst c hc
    exact hst c hc
  | succ m ih =>
    intro node path recStack st hchain hlast hrec hst c hc
    rw [dcDfs] at hc
    split at hc
    · rename_i hmem
      rcases List.mem_append.mp hc with h | h
      · exact hst c h
      · have hcyc : c = dropFrom node path := by simpa using h
        have hnode : node ∈ path := hrec node (memB_iff.mp hmem)
        obtain ⟨pre, suf, heq, hdrop⟩ := dropFrom_spec hnode
        subst hcyc
        rw [hdrop]
        have hch : chainB g (node :: suf) = true := by
          apply chainB_append_right g pre
          rw [← heq]
          exact hchain
        have hlast2 : (node :: suf).getLast? = path.getLast? := by
          rw [heq, List.getLast?_append_cons]
        have hpath_last : ∃ y, path.getLast? = some y := by
          rw [← hlast2]
          cases hsuf : (node :: suf).getLast? with
          | none => simp at hsuf
          | some y => exact ⟨y, rfl⟩
        obtain ⟨y, hy⟩ := hpath_last
        have hclose : (adj g y).contains node = true := hlast y hy
        rw [validCycleB, Bool.and_eq_true, Bool.and_eq_true]
        refine ⟨⟨by simp, hch⟩, ?_⟩
        rw [lastToHeadB]
        have hl' : (node :: suf).getLast? = some y := by rw [hlast2, hy]
        simp only [List.head?_cons, hl']
        exact hclose
    · split at hc
      · exact hst c hc
      · have hfold : ∀ (l : List String) (s : List String × List (List String)),
            (∀ x ∈ l, x ∈ adj g node) →
            (∀ c' ∈ s.2, validCycleB g c' = true) →
            ∀ c' ∈ (l.foldl
              (fun s w => dcDfs g m w (path ++ [node]) (node :: recStack) s) s).2,
              validCycleB g c' = true := by
          intro l
          induction l with
          | nil =>
            intro s _ hs c' hc'
            exact hs c' hc'
          | cons w ws ihw =>
            intro s hmem hs c' hc'
            refine ihw _ (fun x hx => hmem x (List.mem_cons_of_mem _ hx)) ?_ c' hc'
            apply ih w (path ++ [node]) (node :: recStack) s
            · exact chainB_append_singleton g path node hchain hlast
            · intro y hy
              have hyn : y = node := by
                rw [List.getLast?_concat] at hy
                exact (Option.some.inj hy).symm
              subst hyn
              exact containsB_of_mem (hmem w (List.mem_cons_self _ _))
            · intro x hx
              cases List.mem_cons.mp hx with
              | inl h2 => exact h2 ▸ List.mem_append_right _ (List.mem_singleton.mpr rfl)
              | inr h2 => exact List.mem_append_left _ (hrec x h2)
            · exact hs
        exact hfold (adj g node) (node :: st.1, st.2) (fun x hx => hx) hst c hc

/- ### Paths and bounded reachability -/

/-- A valid path in the graph: non-empty, the stated endpoints, and every
consecutive pair an adjacency step. -/
def IsPathL (g : Graph) (s e : String) (p : List String) : Prop :=
  p.head? = some s ∧ p.getLast? = some e ∧ List.Chain' (fun a b => b ∈ adj g a) p

theorem isPathL_single (g : Graph) (s : String) : IsPathL g s s [s] := by
  refine ⟨rfl, rfl, ?_⟩
  simp

theorem isPathL_ne_nil {g : Graph} {s e : String} {p : List String}
    (h : IsPathL g s e p) : p ≠ [] := by
  intro hp
  rw [hp] at h
  exact Option.noConfusion h.1

theorem isPathL_length_pos {g : Graph} {s e : String} {p : List String}
    (h : IsPathL g s e p) : 1 ≤ p.length := by
  cases p with
  | nil => exact absurd rfl (isPathL_ne_nil h)
  | cons a t => simp

theorem isPathL_length_one {g : Graph} {s e : String} {p : List String}
    (h : IsPathL g s e p) (hl : p.length = 1) : s = e := by
  cases p with
  | nil => simp at hl
  | cons a t =>
    cases t with
    | nil =>
      obtain ⟨h1, h2, _⟩ := h
      simp only [List.head?_cons, Option.some.injEq] at h1
      simp only [List.getLast?_singleton, Option.some.injEq] at h2
      rw [← h1, ← h2]
    | cons b r => simp at hl

theorem isPathL_snoc {g : Graph} {s v w : String} {p : List String}
    (h : IsPathL g s v p) (hw : w ∈ adj g v) : IsPathL g s w (p ++ [w]) := by
  obtain ⟨h1, h2, h3⟩ := h
  refine ⟨?_, ?_, ?_⟩
  · cases p with
    | nil => exact Option.noConfusion h1
    | cons a t => simpa using h1
  · exact List.getLast?_concat _
  · rw [List.chain'_append]
    refine ⟨h3, List.chain'_singleton _, ?_⟩
    intro x hx y hy
    simp only [List.head?_cons, Option.mem_def, Option.some.injEq] at hy
    subst hy
    rw [Option.mem_def, h2] at hx
    rw [← Option.some.inj hx]
    exact hw

theorem isPathL_snoc_decomp {g : Graph} {s e : String} {p : List String}
    (h : IsPathL g s e p) (h2 : 2 ≤ p.length) :
    ∃ q u, p = q ++ [e] ∧ IsPathL g s u q ∧ e ∈ adj g u ∧ q.length + 1 = p.length := by
  obtain ⟨h1, hl, hc⟩ := h
  have hne : p ≠ [] := by
    intro hp
    rw [hp] at h1
    exact Option.noConfusion h1
  have hsplit : p.dropLast ++ [p.getLast hne] = p := List.dropLast_append_getLast hne
  have hglast : p.getLast hne = e := by
    have := List.getLast?_eq_getLast p hne
    rw [this] at hl
    exact Option.some.inj hl
  have hqne : p.dropLast ≠ [] := by
    intro hq
    have := congrArg List.length hsplit
    rw [hq] at this
    simp at this
    omega
  refine ⟨p.dropLast, p.dropLast.getLast hqne, ?_, ⟨?_, ?_, ?_⟩, ?_, ?_⟩
  · rw [← hglast]
    exact hsplit.symm
  · cases hp : p with
    | nil => exact absurd hp hne
    | cons a t =>
      cases ht : t with
      | nil =>
        rw [hp, ht] at h2
        simp at h2
      | cons b r =>
        rw [hp] at h1
        simp only [List.head?_cons, Option.some.injEq] at h1
        show ((a :: b :: r).dropLast).head? = some s
        simp [List.dropLast, h1]
  · exact List.getLast?_eq_getLast _ hqne
  · have : List.Chain' (fun a b => b ∈ adj g a) (p.dropLast ++ [p.getLast hne]) := by
      rw [hsplit]
      exact hc
    exact (List.chain'_append.mp this).1
  · have : List.Chain' (fun a b => b ∈ adj g a) (p.dropLast ++ [p.getLast hne]) := by
      rw [hsplit]
      exact hc
    have h3 := (List.chain'_append.mp this).2.2
    have := h3 (p.dropLast.getLast hqne) (by rw [List.getLast?_eq_getLast _ hqne]; rfl)
      (p.getLast hne) rfl
    rw [hglast] at this
    exact this
  · have := congrArg List.length hsplit
    simpa using this

theorem reach_of_chain (g : Graph) :
    ∀ p s e, p.head? = some s → p.getLast? = some e →
      List.Chain' (fun a b => b ∈ adj g a) p → Reach g s e := by
  intro p
  induction p with
  | nil => intro s e h; exact Option.noConfusion h
  | cons a t ih =>
    intro s e h1 h2 h3
    have hsa : s = a := (Option.some.inj h1).symm
    subst hsa
    cases t with
    | nil =>
      have hse : s = e := Option.some.inj h2
      rw [hse]
      exact Relation.ReflTransGen.refl
    | cons b r =>
      rw [List.chain'_cons] at h3
      rw [List.getLast?_cons_cons] at h2
      exact Relation.ReflTransGen.head h3.1 (ih b e rfl h2 h3.2)

theorem reach_of_isPathL {g : Graph} {s e : String} {p : List String}
    (h : IsPathL g s e p) : Reach g s e :=
  reach_of_chain g p s e h.1 h.2.1 h.2.2

/-- Reachability by a path of at most `k` edges (`k + 1` nodes). -/
def ReachLe (g : Graph) (s w : String) (k : Nat) : Prop :=
  ∃ p, IsPathL g s w p ∧ p.length ≤ k + 1

theorem reachLe_mono {g : Graph} {s w : String} {k k' : Nat}
    (h : ReachLe g s w k) (hk : k ≤ k') : ReachLe g s w k' := by
  obtain ⟨p, hp, hl⟩ := h
  exact ⟨p, hp, by omega⟩

theorem reachLe_self (g : Graph) (s : String) (k : Nat) : ReachLe g s s k :=
  ⟨[s], isPathL_single g s, by simp⟩

theorem reachLe_zero {g : Graph} {s w : String} (h : ReachLe g s w 0) : w = s := by
  obtain ⟨p, hp, hl⟩ := h
  have h1 := isPathL_length_pos hp
  exact (isPathL_length_one hp (by omega)).symm

theorem reachLe_decomp {g : Graph} {s w : String} {k : Nat}
    (h : ReachLe g s w k) (hw : w ≠ s) :
    ∃ u j, j + 1 ≤ k ∧ ReachLe g s u j ∧ w ∈ adj g u := by
  obtain ⟨p, hp, hl⟩ := h
  have h1 := isPathL_length_pos hp
  have h2 : 2 ≤ p.length := by
    rcases Nat.lt_or_ge p.length 2 with hlt | hge
    · have : p.length = 1 := by omega
      exact absurd (isPathL_length_one hp this).symm hw
    · exact hge
  obtain ⟨q, u, _, hq, hadj, hlen⟩ := isPathL_snoc_decomp hp h2
  refine ⟨u, q.length - 1, by omega, ⟨q, hq, by omega⟩, hadj⟩

theorem reach_iff_exists_reachLe (g : Graph) (s w : String) :
    Reach g s w ↔ ∃ k, ReachLe g s w k := by
  constructor
  · intro h
    induction h with
    | refl => exact ⟨0, reachLe_self g s 0⟩
    | tail hab hbc ih =>
      obtain ⟨k, p, hp, hl⟩ := ih
      exact ⟨k + 1, p ++ [_], isPathL_snoc hp hbc, by simpa using by omega⟩
  · intro ⟨k, p, hp, _⟩
    exact reach_of_isPathL hp

theorem reach_closed_in {g : Graph} {V : List String}
    (hcl : ∀ u ∈ V, ∀ w ∈ adj g u, w ∈ V) {s : String} (hs : s ∈ V) :
    ∀ v, Reach g s v → v ∈ V := by
  intro v h
  induction h with
  | refl => exact hs
  | tail hab hbc ih => exact hcl _ ih _ hbc

/- ### BFS scan characterization and measure -/

theorem bfsScan_inl (e : String) (path visited : List String) :
    ∀ ws q r, bfsScan e path visited ws q = Sum.inl r →
      r = path ++ [e] ∧ e ∈ ws := by
  intro ws
  induction ws with
  | nil =>
    intro q r h
    exact Sum.noConfusion h
  | cons w ws ih =>
    intro q r h
    rw [bfsScan] at h
    split at h
    · rename_i hw
      subst hw
      exact ⟨(Sum.inl.inj h).symm, List.mem_cons_self _ _⟩
    · split at h
      · obtain ⟨h1, h2⟩ := ih q r h
        exact ⟨h1, List.mem_cons_of_mem _ h2⟩
      · obtain ⟨h1, h2⟩ := ih _ r h
        exact ⟨h1, List.mem_cons_of_mem _ h2⟩

theorem bfsScan_inr (e : String) (path visited : List String) :
    ∀ ws q q', bfsScan e path visited ws q = Sum.inr q' →
      e ∉ ws ∧ q' = q ++ (ws.filter (fun w => !(memB w visited))).map
        (fun w => (w, path ++ [w])) := by
  intro ws
  induction ws with
  | nil =>
    intro q q' h
    rw [bfsScan] at h
    refine ⟨by simp, ?_⟩
    simpa using (Sum.inr.inj h).symm
  | cons w ws ih =>
    intro q q' h
    rw [bfsScan] at h
    split at h
    · exact Sum.noConfusion h
    · rename_i hwe
      split at h
      · rename_i hmem
        obtain ⟨h1, h2⟩ := ih q q' h
        refine ⟨?_, ?_⟩
        · simp only [List.mem_cons]
          push_neg
          exact ⟨fun h' => hwe h'.symm, h1⟩
        · rw [h2]
          congr 1
          rw [List.filter_cons_of_neg (by simpa using hmem)]
      · rename_i hmem
        obtain ⟨h1, h2⟩ := ih _ q' h
        refine ⟨?_, ?_⟩
        · simp only [List.mem_cons]
          push_neg
          exact ⟨fun h' => hwe h'.symm, h1⟩
        · rw [h2, List.filter_cons_of_pos (by simpa using hmem)]
          simp

theorem adj_length_le_graphSize (g : Graph) (k : String) :
    (adj g k).length ≤ graphSize g := by
  induction g with
  | nil => simp [adj, graphSize]
  | cons p t ih =>
    obtain ⟨k', l⟩ := p
    show (adj ((k', l) :: t) k).length ≤ (((k', l) :: t).map (fun q => 1 + q.2.length)).sum
    simp only [adj, List.map_cons, List.sum_cons]
    split
    · omega
    · have := ih
      simp only [graphSize] at this
      omega

/-- The BFS loop's strictly decreasing potential. -/
def bfsM (g : Graph) (q : List (String × List String)) (visited : List String) : Nat :=
  keysRem g visited * (graphSize g + 1) + q.length

/-- The invariant of the BFS while-loop for a run that has not yet returned:
queue entries are valid paths from `s` not ending at `e`; entry path lengths
are non-decreasing and span at most two consecutive values; every adjacency
successor of a visited node is visited or queued; the start node is visited
or queued; `e` is neither visited nor adjacent to any visited node; and the
three layering facts `j3`–`j5` over the front entry `a` that make the first
discovered path to `e` shortest. -/
structure BfsInv (g : Graph) (s e : String)
    (q : List (String × List String)) (visited : List String) : Prop where
  entries : ∀ a ∈ q, IsPathL g s a.1 a.2 ∧ a.1 ≠ e
  lens : q.Pairwise (fun a b => a.2.length ≤ b.2.length ∧ b.2.length ≤ a.2.length + 1)
  closed : ∀ u ∈ visited, ∀ w ∈ adj g u, w ∈ visited ∨ ∃ p, (w, p) ∈ q
  start : s ∈ visited ∨ ∃ p, (s, p) ∈ q
  eNotVis : e ∉ visited
  notE : ∀ u ∈ visited, e ∉ adj g u
  j3 : ∀ a q', q = a :: q' → ∀ w k, ReachLe g s w k → k + 2 ≤ a.2.length → w ∈ visited
  j4 : ∀ a q', q = a :: q' → ∀ w k, ReachLe g s w k → k + 1 = a.2.length →
        w ∈ visited ∨ ∃ p, (w, p) ∈ q ∧ p.length = a.2.length
  j5 : ∀ a q', q = a :: q' → ∀ w k, ReachLe g s w k → k = a.2.length →
        w ∈ visited ∨ (∃ p, (w, p) ∈ q) ∨
          ∃ u p, w ∈ adj g u ∧ (u, p) ∈ q ∧ p.length = a.2.length ∧ u ∉ visited

/-- Popping an already-visited entry preserves the invariant. -/
theorem bfsInv_skip {g : Graph} {s e n : String} {path : List String}
    {rest : List (String × List String)} {visited : List String}
    (inv : BfsInv g s e ((n, path) :: rest) visited)
    (hmem : memB n visited = true) : BfsInv g s e rest visited := by
  have hnv : n ∈ visited := memB_iff.mp hmem
  have hsnd : ((n, path) : String × List String).2.length = path.length := rfl
  have hbounds : ∀ b ∈ rest, path.length ≤ b.2.length ∧ b.2.length ≤ path.length + 1 := by
    have := List.pairwise_cons.mp inv.lens
    exact this.1
  have hrestpw := (List.pairwise_cons.mp inv.lens).2
  -- j3 for the new state
  have hj3 : ∀ a q', rest = a :: q' → ∀ w k, ReachLe g s w k →
      k + 2 ≤ a.2.length → w ∈ visited := by
    intro a q' hq w k hr hk
    have hb := hbounds a (hq ▸ List.mem_cons_self _ _)
    by_cases h1 : k + 2 ≤ path.length
    · exact inv.j3 (n, path) rest rfl w k hr h1
    · have hk1 : k + 1 = path.length := by omega
      have ha : a.2.length = path.length + 1 := by omega
      rcases inv.j4 (n, path) rest rfl w k hr hk1 with h | ⟨p, hp, hplen⟩
      · exact h
      · cases List.mem_cons.mp hp with
        | inl h2 =>
          have : w = n := congrArg Prod.fst h2
          exact this ▸ hnv
        | inr h2 =>
          rw [hq] at h2
          cases List.mem_cons.mp h2 with
          | inl h3 =>
            have : p = a.2 := congrArg Prod.snd h3
            rw [this] at hplen
            omega
          | inr h3 =>
            rw [hq] at hrestpw
            have := (List.pairwise_cons.mp hrestpw).1 (w, p) h3
            simp only at this hplen
            omega
  -- j4 for the new state
  have hj4 : ∀ a q', rest = a :: q' → ∀ w k, ReachLe g s w k → k + 1 = a.2.length →
      w ∈ visited ∨ ∃ p, (w, p) ∈ rest ∧ p.length = a.2.length := by
    intro a q' hq w k hr hk
    have hb := hbounds a (hq ▸ List.mem_cons_self _ _)
    by_cases h1 : a.2.length = path.length
    · rcases inv.j4 (n, path) rest rfl w k hr (by omega) with h | ⟨p, hp, hplen⟩
      · exact Or.inl h
      · cases List.mem_cons.mp hp with
        | inl h2 =>
          have : w = n := congrArg Prod.fst h2
          exact Or.inl (this ▸ hnv)
        | inr h2 => exact Or.inr ⟨p, h2, by omega⟩
    · have ha : a.2.length = path.length + 1 := by omega
      have hkL : k = path.length := by omega
      rcases inv.j5 (n, path) rest rfl w k hr hkL with h | ⟨p, hp⟩ | ⟨u, p, hwu, hp, hplen, hunv⟩
      · exact Or.inl h
      · cases List.mem_cons.mp hp with
        | inl h2 =>
          have : w = n := congrArg Prod.fst h2
          exact Or.inl (this ▸ hnv)
        | inr h2 =>
          refine Or.inr ⟨p, h2, ?_⟩
          have hb2 := hbounds (w, p) h2
          rw [hq] at h2
          cases List.mem_cons.mp h2 with
          | inl h3 =>
            have : p = a.2 := congrArg Prod.snd h3
            rw [this]
          | inr h3 =>
            rw [hq] at hrestpw
            have := (List.pairwise_cons.mp hrestpw).1 (w, p) h3
            simp only at this hb2
            omega
      · cases List.mem_cons.mp hp with
        | inl h2 =>
          have : u = n := congrArg Prod.fst h2
          exact absurd (this ▸ hnv) hunv
        | inr h2 =>
          exfalso
          rw [hq] at h2
          cases List.mem_cons.mp h2 with
          | inl h3 =>
            have : p = a.2 := congrArg Prod.snd h3
            rw [this] at hplen
            omega
          | inr h3 =>
            rw [hq] at hrestpw
            have hble := (List.pairwise_cons.mp hrestpw).1 (u, p) h3
            simp only at hble hplen
            omega
  refine ⟨?_, ?_, ?_, ?_, inv.eNotVis, inv.notE, hj3, ?_, ?_⟩
  · exact fun a ha => inv.entries a (List.mem_cons_of_mem _ ha)
  · exact List.Pairwise.of_cons inv.lens
  · intro u hu w hw
    rcases inv.closed u hu w hw with h | ⟨p, hp⟩
    · exact Or.inl h
    · cases List.mem_cons.mp hp with
      | inl h2 =>
        have : w = n := congrArg Prod.fst h2
        exact Or.inl (this ▸ hnv)
      | inr h2 => exact Or.inr ⟨p, h2⟩
  · rcases inv.start with h | ⟨p, hp⟩
    · exact Or.inl h
    · cases List.mem_cons.mp hp with
      | inl h2 =>
        have : s = n := congrArg Prod.fst h2
        exact Or.inl (this ▸ hnv)
      | inr h2 => exact Or.inr ⟨p, h2⟩
  · exact hj4
  · -- j5 for the new state
    intro a q' hq w k hr hk
    have hb := hbounds a (hq ▸ List.mem_cons_self _ _)
    by_cases h1 : a.2.length = path.length
    · rcases inv.j5 (n, path) rest rfl w k hr (by omega) with h | ⟨p, hp⟩ | ⟨u, p, hwu, hp, hplen, hunv⟩
      · exact Or.inl h
      · cases List.mem_cons.mp hp with
        | inl h2 =>
          have : w = n := congrArg Prod.fst h2
          exact Or.inl (this ▸ hnv)
        | inr h2 => exact Or.inr (Or.inl ⟨p, h2⟩)
      · cases List.mem_cons.mp hp with
        | inl h2 =>
          have : u = n := congrArg Prod.fst h2
          exact absurd (this ▸ hnv) hunv
        | inr h2 =>
          exact Or.inr (Or.inr ⟨u, p, hwu, h2, by omega, hunv⟩)
    · have ha : a.2.length = path.length + 1 := by omega
      by_cases h2 : ReachLe g s w path.length
      · rcases hj4 a q' hq w path.length h2 (by omega) with h | ⟨p, hp, hplen⟩
        · exact Or.inl h
        · exact Or.inr (Or.inl ⟨p, hp⟩)
      · have hws : w ≠ s := by
          intro hws
          exact h2 (hws ▸ reachLe_self g s path.length)
        obtain ⟨u, j, hj, hru, hadj⟩ := reachLe_decomp hr hws
        have hruL : ReachLe g s u path.length := reachLe_mono hru (by omega)
        rcases hj4 a q' hq u path.length hruL (by omega) with h | ⟨p, hp, hplen⟩
        · rcases inv.closed u h w hadj with h3 | ⟨p, hp⟩
          · exact Or.inl h3
          · cases List.mem_cons.mp hp with
            | inl h4 =>
              have : w = n := congrArg Prod.fst h4
              exact Or.inl (this ▸ hnv)
            | inr h4 => exact Or.inr (Or.inl ⟨p, h4⟩)
        · by_cases h3 : u ∈ visited
          · rcases inv.closed u h3 w hadj with h4 | ⟨p2, hp2⟩
            · exact Or.inl h4
            · cases List.mem_cons.mp hp2 with
              | inl h5 =>
                have : w = n := congrArg Prod.fst h5
                exact Or.inl (this ▸ hnv)
              | inr h5 => exact Or.inr (Or.inl ⟨p2, h5⟩)
          · exact Or.inr (Or.inr ⟨u, p, hadj, hp, by omega, h3⟩)

/-- When the neighbor scan finds `e`, the returned path is a valid shortest
path from `s` to `e`. -/
theorem bfsInv_ret {g : Graph} {s e n : String} {path : List String}
    {rest : List (String × List String)} {visited : List String} {p : List String}
    (inv : BfsInv g s e ((n, path) :: rest) visited)
    (hse : s ≠ e)
    (hscan : bfsScan e path (n :: visited) (adj g n) rest = Sum.inl p) :
    IsPathL g s e p ∧ ∀ r, IsPathL g s e r → p.length ≤ r.length := by
  obtain ⟨hpeq, headj⟩ := bfsScan_inl e path (n :: visited) (adj g n) rest p hscan
  have hnp : IsPathL g s n path := (inv.entries (n, path) (List.mem_cons_self _ _)).1
  have hpath : IsPathL g s e p := by
    rw [hpeq]
    exact isPathL_snoc hnp headj
  refine ⟨hpath, ?_⟩
  intro r hr
  by_contra hlt
  push_neg at hlt
  have hplen : p.length = path.length + 1 := by
    rw [hpeq]
    simp
  have hr1 := isPathL_length_pos hr
  have hr2 : 2 ≤ r.length := by
    rcases Nat.lt_or_ge r.length 2 with h | h
    · have : r.length = 1 := by omega
      exact absurd (isPathL_length_one hr this) hse
    · exact h
  obtain ⟨q, u, _, hq, hadj, hqlen⟩ := isPathL_snoc_decomp hr hr2
  have hru : ReachLe g s u (q.length - 1) := ⟨q, hq, by omega⟩
  have huvis : u ∈ visited := by
    refine inv.j3 (n, path) rest rfl u (q.length - 1) hru ?_
    show q.length - 1 + 2 ≤ path.length
    omega
  exact inv.notE u huvis hadj

/-- A helper for building `Pairwise` from a pointwise property. -/
theorem pairwise_of_forall_mem {α : Type} {R : α → α → Prop} {l : List α}
    (h : ∀ x ∈ l, ∀ y ∈ l, R x y) : l.Pairwise R := by
  induction l with
  | nil => exact List.Pairwise.nil
  | cons a t ih =>
    refine List.Pairwise.cons ?_ ?_
    · intro b hb
      exact h a (List.mem_cons_self _ _) b (List.mem_cons_of_mem _ hb)
    · exact ih (fun x hx y hy => h x (List.mem_cons_of_mem _ hx) y (List.mem_cons_of_mem _ hy))

/-- Processing an unvisited entry whose scan does not find `e` preserves the
invariant on the extended queue and visited set. -/
theorem bfsInv_proc {g : Graph} {s e n : String} {path : List String}
    {rest q2 : List (String × List String)} {visited : List String}
    (inv : BfsInv g s e ((n, path) :: rest) visited)
    (hn : memB n visited = false)
    (hscan : bfsScan e path (n :: visited) (adj g n) rest = Sum.inr q2) :
    BfsInv g s e q2 (n :: visited) := by
  obtain ⟨henot, hq2⟩ := bfsScan_inr e path (n :: visited) (adj g n) rest q2 hscan
  have hsnd : ((n, path) : String × List String).2.length = path.length := rfl
  have hnp : IsPathL g s n path := (inv.entries (n, path) (List.mem_cons_self _ _)).1
  have hne : n ≠ e := (inv.entries (n, path) (List.mem_cons_self _ _)).2
  have hbounds : ∀ b ∈ rest, path.length ≤ b.2.length ∧ b.2.length ≤ path.length + 1 :=
    (List.pairwise_cons.mp inv.lens).1
  have hrestpw := (List.pairwise_cons.mp inv.lens).2
  have hnew : ∀ b ∈ (((adj g n).filter (fun w => !(memB w (n :: visited)))).map
      (fun w => (w, path ++ [w]))),
      b.1 ∈ adj g n ∧ memB b.1 (n :: visited) = false ∧ b.2 = path ++ [b.1] := by
    intro b hb
    obtain ⟨w, hw, hwb⟩ := List.mem_map.mp hb
    obtain ⟨hw1, hw2⟩ := List.mem_filter.mp hw
    subst hwb
    exact ⟨hw1, by simpa using hw2, rfl⟩
  have hnewlen : ∀ b ∈ (((adj g n).filter (fun w => !(memB w (n :: visited)))).map
      (fun w => (w, path ++ [w]))), b.2.length = path.length + 1 := by
    intro b hb
    have := (hnew b hb).2.2
    rw [this]
    simp
  -- membership split in the new queue
  have hq2mem : ∀ b ∈ q2, b ∈ rest ∨
      b ∈ (((adj g n).filter (fun w => !(memB w (n :: visited)))).map
        (fun w => (w, path ++ [w]))) := by
    intro b hb
    rw [hq2] at hb
    exact List.mem_append.mp hb
  -- closed for the new state
  have hclosed : ∀ u ∈ n :: visited, ∀ w ∈ adj g u,
      w ∈ n :: visited ∨ ∃ p2, (w, p2) ∈ q2 := by
    intro u hu w hw
    cases List.mem_cons.mp hu with
    | inl h =>
      subst h
      by_cases hmw : memB w (u :: visited)
      · exact Or.inl (memB_iff.mp hmw)
      · refine Or.inr ⟨path ++ [w], ?_⟩
        rw [hq2]
        refine List.mem_append_right _ ?_
        refine List.mem_map.mpr ⟨w, ?_, rfl⟩
        exact List.mem_filter.mpr ⟨hw, by simpa using hmw⟩
    | inr h =>
      rcases inv.closed u h w hw with h2 | ⟨p2, hp2⟩
      · exact Or.inl (List.mem_cons_of_mem _ h2)
      · cases List.mem_cons.mp hp2 with
        | inl h3 =>
          have : w = n := congrArg Prod.fst h3
          exact Or.inl (this ▸ List.mem_cons_self _ _)
        | inr h3 =>
          refine Or.inr ⟨p2, ?_⟩
          rw [hq2]
          exact List.mem_append_left _ h3
  -- j4 for the new state
  have hj4 : ∀ a q', q2 = a :: q' → ∀ w k, ReachLe g s w k → k + 1 = a.2.length →
      w ∈ n :: visited ∨ ∃ p2, (w, p2) ∈ q2 ∧ p2.length = a.2.length := by
    intro a q' hq w k hr hk
    have hamem : a ∈ q2 := hq ▸ List.mem_cons_self _ _
    have halen : a.2.length = path.length ∨ a.2.length = path.length + 1 := by
      rcases hq2mem a hamem with h | h
      · have := hbounds a h
        omega
      · exact Or.inr (hnewlen a h)
    -- all entries of rest have length at least the new front's length
    have hrest_ge : ∀ b ∈ rest, a.2.length ≤ b.2.length := by
      intro b hb
      cases hrest : rest with
      | nil => rw [hrest] at hb; simp at hb
      | cons r0 rest' =>
        have ha0 : a = r0 := by
          rw [hq2, hrest] at hq
          simpa using (congrArg (fun l => l.head?) hq).symm
        rw [hrest] at hb
        cases List.mem_cons.mp hb with
        | inl h2 => rw [ha0, h2]
        | inr h2 =>
          rw [ha0]
          rw [hrest] at hrestpw
          exact ((List.pairwise_cons.mp hrestpw).1 b h2).1
    rcases halen with hL | hL1
    · -- front unchanged in length
      rcases inv.j4 (n, path) rest rfl w k hr (by omega) with h | ⟨p2, hp2, hp2len⟩
      · exact Or.inl (List.mem_cons_of_mem _ h)
      · cases List.mem_cons.mp hp2 with
        | inl h2 =>
          have : w = n := congrArg Prod.fst h2
          exact Or.inl (this ▸ List.mem_cons_self _ _)
        | inr h2 =>
          refine Or.inr ⟨p2, by rw [hq2]; exact List.mem_append_left _ h2, by omega⟩
    · -- front length advanced
      have hkL : k = path.length := by omega
      rcases inv.j5 (n, path) rest rfl w k hr (by omega) with h | ⟨p2, hp2⟩ |
        ⟨u, p2, hwu, hp2, hp2len, hunv⟩
      · exact Or.inl (List.mem_cons_of_mem _ h)
      · cases List.mem_cons.mp hp2 with
        | inl h2 =>
          have : w = n := congrArg Prod.fst h2
          exact Or.inl (this ▸ List.mem_cons_self _ _)
        | inr h2 =>
          have hge := hrest_ge (w, p2) h2
          have hble := hbounds (w, p2) h2
          refine Or.inr ⟨p2, by rw [hq2]; exact List.mem_append_left _ h2, ?_⟩
          simp only at hge hble
          omega
      · cases List.mem_cons.mp hp2 with
        | inl h2 =>
          have hun2 : u = n := congrArg Prod.fst h2
          subst hun2
          by_cases hmw : memB w (u :: visited)
          · exact Or.inl (memB_iff.mp hmw)
          · refine Or.inr ⟨path ++ [w], ?_, by simp; omega⟩
            rw [hq2]
            refine List.mem_append_right _ ?_
            refine List.mem_map.mpr ⟨w, ?_, rfl⟩
            exact List.mem_filter.mpr ⟨hwu, by simpa using hmw⟩
        | inr h2 =>
          exfalso
          have hge := hrest_ge (u, p2) h2
          simp only at hge hp2len
          omega
  refine ⟨?_, ?_, hclosed, ?_, ?_, ?_, ?_, hj4, ?_⟩
  · -- entries
    intro b hb
    rcases hq2mem b hb with h | h
    · exact inv.entries b (List.mem_cons_of_mem _ h)
    · obtain ⟨hb1, _, hb3⟩ := hnew b h
      constructor
      · rw [hb3]
        exact isPathL_snoc hnp hb1
      · intro hbe
        exact henot (hbe ▸ hb1)
  · -- lens
    rw [hq2]
    rw [List.pairwise_append]
    refine ⟨hrestpw, ?_, ?_⟩
    · refine pairwise_of_forall_mem ?_
      intro x hx y hy
      have hx' := hnewlen x hx
      have hy' := hnewlen y hy
      omega
    · intro x hx y hy
      have hxb := hbounds x hx
      have hy' := hnewlen y hy
      omega
  · -- start
    rcases inv.start with h | ⟨p2, hp2⟩
    · exact Or.inl (List.mem_cons_of_mem _ h)
    · cases List.mem_cons.mp hp2 with
      | inl h2 =>
        have : s = n := congrArg Prod.fst h2
        exact Or.inl (this ▸ List.mem_cons_self _ _)
      | inr h2 =>
        refine Or.inr ⟨p2, ?_⟩
        rw [hq2]
        exact List.mem_append_left _ h2
  · -- e not visited
    intro he
    cases List.mem_cons.mp he with
    | inl h => exact hne h.symm
    | inr h => exact inv.eNotVis h
  · -- notE
    intro u hu
    cases List.mem_cons.mp hu with
    | inl h => exact h ▸ henot
    | inr h => exact inv.notE u h
  · -- j3
    intro a q' hq w k hr hk
    have hamem : a ∈ q2 := hq ▸ List.mem_cons_self _ _
    have halen : a.2.length = path.length ∨ a.2.length = path.length + 1 := by
      rcases hq2mem a hamem with h | h
      · have := hbounds a h
        omega
      · exact Or.inr (hnewlen a h)
    by_cases h1 : k + 2 ≤ path.length
    · exact List.mem_cons_of_mem _ (inv.j3 (n, path) rest rfl w k hr h1)
    · have hk1 : k + 1 = path.length := by omega
      rcases inv.j4 (n, path) rest rfl w k hr (by omega) with h | ⟨p2, hp2, hp2len⟩
      · exact List.mem_cons_of_mem _ h
      · cases List.mem_cons.mp hp2 with
        | inl h2 =>
          have : w = n := congrArg Prod.fst h2
          exact this ▸ List.mem_cons_self _ _
        | inr h2 =>
          exfalso
          -- the rest entry has length `path.length` but the front of q2 has
          -- length `path.length + 1`
          have haL1 : a.2.length = path.length + 1 := by omega
          cases hrest : rest with
          | nil => rw [hrest] at h2; simp at h2
          | cons r0 rest' =>
            have ha0 : a = r0 := by
              rw [hq2, hrest] at hq
              simpa using (congrArg (fun l => l.head?) hq).symm
            rw [hrest] at h2
            cases List.mem_cons.mp h2 with
            | inl h3 =>
              have : p2 = r0.2 := congrArg Prod.snd h3
              rw [this] at hp2len
              rw [← ha0] at hp2len
              omega
            | inr h3 =>
              rw [hrest] at hrestpw
              have hble := ((List.pairwise_cons.mp hrestpw).1 (w, p2) h3).1
              have ha2 : path.length + 1 ≤ r0.2.length := by
                rw [← ha0, haL1]
              simp only at hble hp2len
              omega
  · -- j5
    intro a q' hq w k hr hk
    have hamem : a ∈ q2 := hq ▸ List.mem_cons_self _ _
    have halen : a.2.length = path.length ∨ a.2.length = path.length + 1 := by
      rcases hq2mem a hamem with h | h
      · have := hbounds a h
        omega
      · exact Or.inr (hnewlen a h)
    have hrest_ge : ∀ b ∈ rest, a.2.length ≤ b.2.length := by
      intro b hb
      cases hrest : rest with
      | nil => rw [hrest] at hb; simp at hb
      | cons r0 rest' =>
        have ha0 : a = r0 := by
          rw [hq2, hrest] at hq
          simpa using (congrArg (fun l => l.head?) hq).symm
        rw [hrest] at hb
        cases List.mem_cons.mp hb with
        | inl h2 => rw [ha0, h2]
        | inr h2 =>
          rw [ha0]
          rw [hrest] at hrestpw
          exact ((List.pairwise_cons.mp hrestpw).1 b h2).1
    rcases halen with hL | hL1
    · -- same front length: use the old j5
      rcases inv.j5 (n, path) rest rfl w k hr (by omega) with h | ⟨p2, hp2⟩ |
        ⟨u, p2, hwu, hp2, hp2len, hunv⟩
      · exact Or.inl (List.mem_cons_of_mem _ h)
      · cases List.mem_cons.mp hp2 with
        | inl h2 =>
          have : w = n := congrArg Prod.fst h2
          exact Or.inl (this ▸ List.mem_cons_self _ _)
        | inr h2 =>
          exact Or.inr (Or.inl ⟨p2, by rw [hq2]; exact List.mem_append_left _ h2⟩)
      · by_cases hun : u = n
        · subst hun
          by_cases hmw : memB w (u :: visited)
          · exact Or.inl (memB_iff.mp hmw)
          · refine Or.inr (Or.inl ⟨path ++ [w], ?_⟩)
            rw [hq2]
            refine List.mem_append_right _ ?_
            refine List.mem_map.mpr ⟨w, ?_, rfl⟩
            exact List.mem_filter.mpr ⟨hwu, by simpa using hmw⟩
        · cases List.mem_cons.mp hp2 with
          | inl h2 => exact absurd (congrArg Prod.fst h2) hun
          | inr h2 =>
            refine Or.inr (Or.inr ⟨u, p2, hwu, ?_, by omega, ?_⟩)
            · rw [hq2]
              exact List.mem_append_left _ h2
            · intro hu2
              cases List.mem_cons.mp hu2 with
              | inl h3 => exact hun h3
              | inr h3 => exact hunv h3
    · -- advanced front length
      by_cases h2 : ReachLe g s w path.length
      · rcases hj4 a q' hq w path.length h2 (by omega) with h | ⟨p2, hp2, _⟩
        · exact Or.inl h
        · exact Or.inr (Or.inl ⟨p2, hp2⟩)
      · have hws : w ≠ s := by
          intro hws
          exact h2 (hws ▸ reachLe_self g s path.length)
        obtain ⟨u, j, hj, hru, hadj⟩ := reachLe_decomp hr hws
        have hruL : ReachLe g s u path.length := reachLe_mono hru (by omega)
        rcases hj4 a q' hq u path.length hruL (by omega) with h | ⟨p2, hp2, hp2len⟩
        · rcases hclosed u h w hadj with h3 | ⟨p2, hp2⟩
          · exact Or.inl h3
          · exact Or.inr (Or.inl ⟨p2, hp2⟩)
        · by_cases h3 : u ∈ n :: visited
          · rcases hclosed u h3 w hadj with h4 | ⟨p3, hp3⟩
            · exact Or.inl h4
            · exact Or.inr (Or.inl ⟨p3, hp3⟩)
          · exact Or.inr (Or.inr ⟨u, p2, hadj, hp2, by omega, h3⟩)

theorem bfsM_proc_lt {g : Graph} {e n : String} {path : List String}
    {rest q2 : List (String × List String)} {visited : List String}
    (hn : memB n visited = false)
    (hscan : bfsScan e path (n :: visited) (adj g n) rest = Sum.inr q2) :
    bfsM g q2 (n :: visited) < bfsM g ((n, path) :: rest) visited := by
  obtain ⟨_, hq2⟩ := bfsScan_inr e path (n :: visited) (adj g n) rest q2 hscan
  have hq2len : q2.length ≤ rest.length + (adj g n).length := by
    rw [hq2]
    simp only [List.length_append, List.length_map]
    have := List.length_filter_le (fun w => !(memB w (n :: visited))) (adj g n)
    omega
  unfold bfsM
  by_cases hk : n ∈ g.map Prod.fst
  · have h1 : keysRem g (n :: visited) + 1 ≤ keysRem g visited := keysRem_cons_lt g hk hn
    have h2 : (adj g n).length ≤ graphSize g := adj_length_le_graphSize g n
    have h3 : keysRem g (n :: visited) * (graphSize g + 1) + (graphSize g + 1) ≤
        keysRem g visited * (graphSize g + 1) := by
      have := Nat.mul_le_mul_right (graphSize g + 1) h1
      calc keysRem g (n :: visited) * (graphSize g + 1) + (graphSize g + 1)
          = (keysRem g (n :: visited) + 1) * (graphSize g + 1) := by ring
        _ ≤ keysRem g visited * (graphSize g + 1) := this
    simp only [List.length_cons]
    omega
  · have ha : adj g n = [] := adj_nil_of_not_key hk
    have hq2r : q2 = rest := by
      rw [hq2, ha]
      simp
    rw [keysRem_cons_eq_of_not_key g hk, hq2r]
    simp only [List.length_cons]
    omega

/-- The initial BFS state satisfies the invariant. -/
theorem bfsInv_init (g : Graph) (s e : String) (hse : s ≠ e) :
    BfsInv g s e [(s, [s])] [] := by
  refine ⟨?_, ?_, ?_, ?_, ?_, ?_, ?_, ?_, ?_⟩
  · intro a ha
    rcases List.mem_singleton.mp ha with rfl
    exact ⟨isPathL_single g s, hse⟩
  · simp
  · intro u hu
    simp at hu
  · exact Or.inr ⟨[s], List.mem_singleton.mpr rfl⟩
  · simp
  · intro u hu
    simp at hu
  · intro a q' hq w k hr hk
    have ha : a = (s, [s]) := by simpa using congrArg (fun l => l.head?) hq |>.symm
    rw [ha] at hk
    simp at hk
  · intro a q' hq w k hr hk
    have ha : a = (s, [s]) := by simpa using congrArg (fun l => l.head?) hq |>.symm
    rw [ha] at hk ⊢
    simp only at hk ⊢
    have hk0 : k = 0 := by
      simp only [List.length_singleton] at hk
      omega
    subst hk0
    have hws : w = s := reachLe_zero hr
    subst hws
    exact Or.inr ⟨[w], List.mem_singleton.mpr rfl, rfl⟩
  · intro a q' hq w k hr hk
    have ha : a = (s, [s]) := by simpa using congrArg (fun l => l.head?) hq |>.symm
    rw [ha] at hk ⊢
    simp only [List.length_singleton] at hk
    subst hk
    by_cases h0 : ReachLe g s w 0
    · have hws : w = s := reachLe_zero h0
      subst hws
      exact Or.inr (Or.inl ⟨[w], List.mem_singleton.mpr rfl⟩)
    · have hws : w ≠ s := fun hws => h0 (hws ▸ reachLe_self g s 0)
      obtain ⟨u, j, hj, hru, hadj⟩ := reachLe_decomp hr hws
      have hj0 : j = 0 := by omega
      subst hj0
      have hus : u = s := reachLe_zero hru
      subst hus
      refine Or.inr (Or.inr ⟨u, [u], hadj, List.mem_singleton.mpr rfl, rfl, by simp⟩)

/-- Main BFS lemma: with sufficient fuel and the invariant, `bfsLoop` returns
`none` only when `e` is unreachable, and any returned path is a valid
shortest path. -/
theorem bfsLoop_correct (g : Graph) (s e : String) (hse : s ≠ e) :
    ∀ fuel q visited, bfsM g q visited < fuel → BfsInv g s e q visited →
      (bfsLoop g e fuel q visited = none → ¬ Reach g s e) ∧
      (∀ p, bfsLoop g e fuel q visited = some p →
        IsPathL g s e p ∧ ∀ r, IsPathL g s e r → p.length ≤ r.length) := by
  intro fuel
  induction fuel with
  | zero =>
    intro q visited hm
    exact absurd hm (Nat.not_lt_zero _)
  | succ m ih =>
    intro q visited hm inv
    cases q with
    | nil =>
      constructor
      · intro _ hreach
        have hs : s ∈ visited := by
          rcases inv.start with h | ⟨p, hp⟩
          · exact h
          · simp at hp
        have hcl : ∀ u ∈ visited, ∀ w ∈ adj g u, w ∈ visited := by
          intro u hu w hw
          rcases inv.closed u hu w hw with h | ⟨p, hp⟩
          · exact h
          · simp at hp
        exact inv.eNotVis (reach_closed_in hcl hs e hreach)
      · intro p hp
        simp [bfsLoop] at hp
    | cons a rest =>
      obtain ⟨n, path⟩ := a
      show (bfsLoop g e (m + 1) ((n, path) :: rest) visited = none → _) ∧ _
      rw [bfsLoop]
      split
      · rename_i hmem
        have hm' : bfsM g rest visited < m := by
          unfold bfsM at hm ⊢
          simp only [List.length_cons] at hm
          omega
        exact ih rest visited hm' (bfsInv_skip inv hmem)
      · rename_i hmem
        have hn : memB n visited = false := by simpa using hmem
        cases hscan : bfsScan e path (n :: visited) (adj g n) rest with
        | inl p =>
          constructor
          · intro hnone
            simp at hnone
          · intro p' hp'
            have hpp : p = p' := Option.some.inj hp'
            subst hpp
            exact bfsInv_ret inv hse hscan
        | inr q2 =>
          have hm' : bfsM g q2 (n :: visited) < m := by
            have := bfsM_proc_lt hn hscan
            omega
          exact ih q2 (n :: visited) hm' (bfsInv_proc inv hn hscan)

/-- Full behavioral specification of `find_shortest_path`: `[start]` when the
endpoints coincide; `none` exactly when `end` is unreachable; any returned
path is a valid path of minimum length (hence minimum edge count). -/
theorem find_shortest_path_spec (g : Graph) (s e : String) :
    (s = e → find_shortest_path g s e = some [s]) ∧
    (find_shortest_path g s e = none ↔ ¬ Reach g s e) ∧
    (∀ p, find_shortest_path g s e = some p →
      IsPathL g s e p ∧ ∀ r, IsPathL g s e r → p.length ≤ r.length) := by
  by_cases hse : s = e
  · subst hse
    have hres : find_shortest_path g s s = some [s] := by
      unfold find_shortest_path
      rw [if_pos rfl]
    refine ⟨fun _ => hres, ?_, ?_⟩
    · rw [hres]
      constructor
      · intro h
        exact Option.noConfusion h
      · intro h
        exact absurd Relation.ReflTransGen.refl h
    · intro p hp
      rw [hres] at hp
      have hps : p = [s] := (Option.some.inj hp).symm
      subst hps
      exact ⟨isPathL_single g s, fun r hr => by simpa using isPathL_length_pos hr⟩
  · have hres : find_shortest_path g s e =
        bfsLoop g e (keysRem g [] * (graphSize g + 1) + 2) [(s, [s])] [] := by
      unfold find_shortest_path
      rw [if_neg hse]
    have hm : bfsM g [(s, [s])] [] < keysRem g [] * (graphSize g + 1) + 2 := by
      unfold bfsM
      simp
    have hmain := bfsLoop_correct g s e hse _ [(s, [s])] [] hm (bfsInv_init g s e hse)
    refine ⟨fun h => absurd h hse, ?_, ?_⟩
    · rw [hres]
      constructor
      · exact hmain.1
      · intro hnr
        cases hcase : bfsLoop g e (keysRem g [] * (graphSize g + 1) + 2) [(s, [s])] [] with
        | none => rfl
        | some p =>
          exact absurd (reach_of_isPathL (hmain.2 p hcase).1) hnr
    · intro p hp
      rw [hres] at hp
      exact hmain.2 p hp

/- ### Parse-state facts used by the report-level theorems -/

theorem nAdd_ne_nil (ns : List String) (a : String) : nAdd ns a ≠ [] := by
  unfold nAdd
  split
  · rename_i h
    intro hns
    rw [hns] at h
    simp at h
  · simp

theorem addMappingNeighbors_nodes_ne (node : String) :
    ∀ (vs : List String) (st : ParseSt), st.nodes ≠ [] →
      (addMappingNeighbors node vs st).nodes ≠ [] := by
  intro vs
  induction vs with
  | nil => intro st h; exact h
  | cons v t ih =>
    intro st _
    exact ih _ (nAdd_ne_nil _ _)

theorem addMappingPairs_nodes_ne :
    ∀ (ps : List (String × List String)) (st : ParseSt),
      (st.graph ≠ [] → st.nodes ≠ []) →
      (addMappingPairs ps st).graph ≠ [] → (addMappingPairs ps st).nodes ≠ [] := by
  intro ps
  induction ps with
  | nil => intro st h; exact h
  | cons p t ih =>
    obtain ⟨k, vs⟩ := p
    intro st _
    exact ih _ (fun _ => addMappingNeighbors_nodes_ne k vs _ (nAdd_ne_nil _ _))

theorem addEdgeListMatches_nodes_ne (rev : Bool) :
    ∀ (ms : List (String × String)) (st : ParseSt),
      (st.graph ≠ [] → st.nodes ≠ []) →
      (addEdgeListMatches rev ms st).graph ≠ [] →
      (addEdgeListMatches rev ms st).nodes ≠ [] := by
  intro ms
  induction ms with
  | nil => intro st h; exact h
  | cons m t ih =>
    obtain ⟨u, v⟩ := m
    intro st _
    exact ih _ (fun _ => nAdd_ne_nil _ _)

/-- A non-empty parsed adjacency mapping implies a non-empty node set: every
edge insertion adds both endpoints to the node set first. -/
theorem mappingStage_nodes_ne (text : String)
    (h : (mappingStage text).graph ≠ []) : (mappingStage text).nodes ≠ [] := by
  unfold mappingStage at h ⊢
  by_cases hbr : (text.toList.contains '\x7b' && text.toList.contains '\x7d') = true
  · rw [if_pos hbr] at h ⊢
    cases hpm : parseMapping text with
    | some pairs =>
      rw [hpm] at h
      exact addMappingPairs_nodes_ne pairs ⟨[], [], []⟩ (fun h' => absurd rfl h') h
    | none =>
      rw [hpm] at h
      exact absurd rfl h
  · rw [if_neg hbr] at h
    exact absurd rfl h

theorem parseGraphData_nodes_ne (text : String)
    (h : (parseGraphData text).graph ≠ []) : (parseGraphData text).nodes ≠ [] := by
  unfold parseGraphData at h ⊢
  by_cases hg2 : (mappingStage text).graph.isEmpty = true
  · rw [if_pos hg2] at h ⊢
    exact addEdgeListMatches_nodes_ne _ _ _ (fun h' => mappingStage_nodes_ne text h') h
  · rw [if_neg hg2] at h ⊢
    exact mappingStage_nodes_ne text h

/-- On parse failure (empty node set) the tool returns the error string with
the 200-character truncated echo of the input. -/
theorem analyze_parse_failure (input atype s e : String)
    (h : (parseGraphData input).nodes = []) :
    analyze_graph_traversal input atype s e =
      "Could not parse graph structure from: " ++ input.take 200 ++ "..." := by
  unfold analyze_graph_traversal
  simp [h]

/-- With a parsed non-empty adjacency mapping and no selected analysis branch
(the `path_analysis` guard failing on an empty endpoint, or an unrecognized
`analysis_type`), the report is exactly the header plus the structure block. -/
theorem analyze_structure_only (input atype s e : String)
    (hg : (parseGraphData input).graph ≠ [])
    (hsel : (atype = "path_analysis" ∧ (s = "" ∨ e = "")) ∨
      atype ∉ ["path_analysis", "eulerian_path", "connectivity", "cycle_detection"]) :
    analyze_graph_traversal input atype s e =
      ("Graph Traversal Analysis: " ++ atype ++ "\n" ++ repeatC '=' 50 ++ "\n") ++
        structureSection (parseGraphData input) := by
  have hnodes : (parseGraphData input).nodes ≠ [] := parseGraphData_nodes_ne input hg
  have hge : ((parseGraphData input).graph.isEmpty && hasGridWords input) = false := by
    cases hcase : (parseGraphData input).graph with
    | nil => exact absurd hcase hg
    | cons a t => simp
  have hnl : (parseGraphData input).nodes.isEmpty = false := by
    cases hcase : (parseGraphData input).nodes with
    | nil => exact absurd hcase hnodes
    | cons a t => simp
  have he : atype ≠ "eulerian_path" := by
    rcases hsel with ⟨h1, _⟩ | h1
    · rw [h1]; decide
    · intro hc
      exact h1 (by rw [hc]; decide)
  have hc : atype ≠ "connectivity" := by
    rcases hsel with ⟨h1, _⟩ | h1
    · rw [h1]; decide
    · intro hc
      exact h1 (by rw [hc]; decide)
  have hcd : atype ≠ "cycle_detection" := by
    rcases hsel with ⟨h1, _⟩ | h1
    · rw [h1]; decide
    · intro hc
      exact h1 (by rw [hc]; decide)
  have hp : ¬ (atype = "path_analysis" ∧ s ≠ "" ∧ e ≠ "") := by
    rcases hsel with ⟨h1, h2⟩ | h1
    · rintro ⟨_, hs2, he2⟩
      rcases h2 with h2 | h2
      · exact hs2 h2
      · exact he2 h2
    · rintro ⟨hc, _, _⟩
      exact h1 (by rw [hc]; decide)
  unfold analyze_graph_traversal analyzeBody
  rw [hge, if_neg (by simp [hnl]), if_neg he, if_neg hc, if_neg hp, if_neg hcd]
  simp

/- ### Claims -/

set_option maxRecDepth 20000

/-- C1 counterexample: on the input `"A-B, B-C, C-A, D-E, E-F, F-D"` — two
disjoint triangles, every degree even, graph disconnected — the
`eulerian_path` branch emits the `✓ Eulerian CYCLE exists` classification
(`eulerianKind = "cycle"`) although the graph is not connected, so the
claimed equivalence `kind = "cycle" ↔ connected ∧ all degrees even` fails at
this parsed graph. -/
theorem C1_counterexample :
    ¬ (eulerianKind (parseGraphData "A-B, B-C, C-A, D-E, E-F, F-D").graph
        (parseGraphData "A-B, B-C, C-A, D-E, E-F, F-D").nodes = "cycle" ↔
      (is_connected (parseGraphData "A-B, B-C, C-A, D-E, E-F, F-D").graph
          (parseGraphData "A-B, B-C, C-A, D-E, E-F, F-D").nodes = true ∧
        ∀ v ∈ (parseGraphData "A-B, B-C, C-A, D-E, E-F, F-D").nodes,
          (adj (parseGraphData "A-B, B-C, C-A, D-E, E-F, F-D").graph v).length % 2 = 0)) := by
  decide

/-- C1 (amended): the `eulerian_path` classification depends on the
odd-degree count alone — `"cycle"` iff every node degree is even, `"path"`
iff exactly two nodes have odd degree, `"none"` otherwise — regardless of
connectivity, which the source reports as a separate line of the same
section. -/
theorem C1_eulerian_classification_by_parity (g : Graph) (nodes : List String) :
    (eulerianKind g nodes = "cycle" ↔ ∀ v ∈ nodes, (adj g v).length % 2 = 0) ∧
    (eulerianKind g nodes = "path" ↔ (odd_degree_nodes g nodes).length = 2) ∧
    (eulerianKind g nodes = "none" ↔
      ((odd_degree_nodes g nodes).length ≠ 0 ∧ (odd_degree_nodes g nodes).length ≠ 2)) := by
  unfold eulerianKind
  by_cases h0 : (odd_degree_nodes g nodes).length = 0
  · rw [if_pos h0]
    refine ⟨?_, ?_, ?_⟩
    · exact iff_of_true rfl ((odd_degree_nodes_nil_iff g nodes).mp h0)
    · exact iff_of_false (by decide) (by omega)
    · exact iff_of_false (by decide) (by omega)
  · rw [if_neg h0]
    by_cases h2 : (odd_degree_nodes g nodes).length = 2
    · rw [if_pos h2]
      refine ⟨?_, ?_, ?_⟩
      · refine iff_of_false (by decide) ?_
        intro hall
        exact h0 ((odd_degree_nodes_nil_iff g nodes).mpr hall)
      · exact iff_of_true rfl h2
      · exact iff_of_false (by decide) (by omega)
    · rw [if_neg h2]
      refine ⟨?_, ?_, ?_⟩
      · refine iff_of_false (by decide) ?_
        intro hall
        exact h0 ((odd_degree_nodes_nil_iff g nodes).mpr hall)
      · exact iff_of_false (by decide) h2
      · exact iff_of_true rfl ⟨h0, h2⟩

/-- C2 counterexample: the inputs `"B→A, C→A"` and `"B-A, C-A"` declare the
same two edges, once directed and once undirected.  Connectivity is claimed
to be evaluated on the undirected closure (so both should be connected), but
`is_connected` returns `false` for the directed declaration and `true` for
the undirected one: traversal follows only the parsed forward adjacency. -/
theorem C2_counterexample :
    is_connected (parseGraphData "B→A, C→A").graph (parseGraphData "B→A, C→A").nodes = false ∧
    is_connected (parseGraphData "B-A, C-A").graph (parseGraphData "B-A, C-A").nodes = true := by
  decide

/-- C2 (amended): `is_connected` evaluates reachability over the adjacency
mapping exactly as parsed, traversing each edge only from source to target
(and `find_connected_components` traverses the same way), so the result can
depend on the direction in which edges were declared: it returns true iff
every node is forward-reachable from the first node of the node set. -/
theorem C2_connectivity_forward_reachability (g : Graph) (n : String) (rest : List String)
    (hnd : (n :: rest).Nodup) (hcl : ∀ p ∈ g, ∀ b ∈ p.2, b ∈ n :: rest) :
    is_connected g (n :: rest) = true ↔ ∀ v ∈ n :: rest, Reach g n v :=
  is_connected_iff_forward_reach g n rest hnd hcl

/-- C2 witness: the amended theorem applied to the concrete two-node graph
with both edge directions present. -/
theorem C2_witness :
    is_connected [("A", ["B"]), ("B", ["A"])] ["A", "B"] = true ↔
      ∀ v ∈ ["A", "B"], Reach [("A", ["B"]), ("B", ["A"])] "A" v :=
  C2_connectivity_forward_reachability [("A", ["B"]), ("B", ["A"])] "A" ["B"]
    (by decide) (by decide)

/-- C3 counterexample: in `"A→B, C-D"` the edge `(A, B)` is matched with the
separator `→`, yet the reverse edge `B → A` is inserted (`adj "B" = ["A"]`)
because the reverse test looks for `"-"` anywhere in the whole text; and a
two-character `"->"` separator is never matched at all by the single-character
class `[-→>]` (after the failed dash the `>` blocks the second group), so
`"A -> B"` yields no edge. -/
theorem C3_counterexample :
    (("A", "B") ∈ edgeMatches "A→B, C-D") ∧
    adj (parseGraphData "A→B, C-D").graph "B" = ["A"] ∧
    edgeMatches "A -> B" = [] := by
  decide

/-- C3 (amended): the edge-list rule decides reverse insertion globally, not
per edge: the parsed adjacency contains `u → v` exactly when `(u, v)` was
matched, or the whole text contains `"undirected"` (case-insensitive) or the
character `-` anywhere and `(v, u)` was matched. -/
theorem C3_reverse_insertion_is_global (text : String) (u v : String) :
    v ∈ adj (addEdgeListMatches (revCond text) (edgeMatches text) ⟨[], [], []⟩).graph u ↔
      ((u, v) ∈ edgeMatches text ∨ (revCond text = true ∧ (v, u) ∈ edgeMatches text)) := by
  rw [mem_adj_addEdgeListMatches]
  simp [adj]

/-- C4: the grid/ownership branch builds the advisory report (reference count
and Eulerian checklist) into `result`, but never adds any node, so the
subsequent `if not nodes` guard unconditionally returns the parse-failure
string and the advisory text is discarded: evaluating the tool at a
color/ownership input with no parsable edges yields the error message, not
the advisory report. -/
theorem C4_grid_advisory_discarded :
    analyze_graph_traversal "Earl owns green plots in the grid" "eulerian_path" "" "" =
      "Could not parse graph structure from: Earl owns green plots in the grid..." := by
  decide

/-- C5: whenever parsing extracts no node, `analyze_graph_traversal` returns
the error string carrying the first 200 characters of the input; the Python
function never raises (its body is wrapped in a catch-all `try/except` that
returns an error string), and the embedding is total by construction. -/
theorem C5_parse_failure_returns_truncated_echo (input atype s e : String)
    (h : (parseGraphData input).nodes = []) :
    analyze_graph_traversal input atype s e =
      "Could not parse graph structure from: " ++ input.take 200 ++ "..." :=
  analyze_parse_failure input atype s e h

/-- C5 witness: the spec's own scenario, `"hello world no graph here"`. -/
theorem C5_witness :
    (parseGraphData "hello world no graph here").nodes = [] ∧
    analyze_graph_traversal "hello world no graph here" "connectivity" "" "" =
      "Could not parse graph structure from: " ++
        ("hello world no graph here" : String).take 200 ++ "..." :=
  ⟨by decide, C5_parse_failure_returns_truncated_echo _ _ _ _ (by decide)⟩

/-- C6 counterexample: with the parsed graph of `"A-B"` and the missing start
node `"X"`, the `path_analysis` report simply says
`No path exists between X and B`; no `InvalidNodeError` (which exists nowhere
in the repository) and no listing of valid nodes is produced. -/
theorem C6_counterexample :
    containsSubS "No path exists between X and B"
      (analyze_graph_traversal "A-B" "path_analysis" "X" "B") = true ∧
    containsSubS "InvalidNodeError"
      (analyze_graph_traversal "A-B" "path_analysis" "X" "B") = false := by
  decide

/-- C6 (amended): no node validation exists; a caller-supplied start node
absent from the graph is treated as a node without neighbors, so the
shortest-path search returns `none` (reported as "No path exists …") and the
all-paths enumeration is empty. -/
theorem C6_missing_node_reports_no_path (g : Graph) (s e : String)
    (hs : s ∉ g.map Prod.fst) (hne : s ≠ e) :
    find_shortest_path g s e = none ∧ find_all_paths g s e 10 = [] := by
  have ha : adj g s = [] := adj_nil_of_not_key hs
  constructor
  · unfold find_shortest_path
    rw [if_neg hne]
    simp [bfsLoop, memB, ha, bfsScan]
  · unfold find_all_paths
    simp [fapDfs, hne, ha]

/-- C6 witness: the amended theorem at the graph of `"A-B"` with missing
start node `"X"`. -/
theorem C6_witness :
    ("X" ∉ ([("A", ["B"]), ("B", ["A"])] : Graph).map Prod.fst) ∧
    find_shortest_path [("A", ["B"]), ("B", ["A"])] "X" "B" = none ∧
    find_all_paths [("A", ["B"]), ("B", ["A"])] "X" "B" 10 = [] := by
  refine ⟨by decide, ?_⟩
  exact C6_missing_node_reports_no_path [("A", ["B"]), ("B", ["A"])] "X" "B"
    (by decide) (by decide)

/-- C7: `find_shortest_path` returns the single-node path for coinciding
endpoints, returns `none` exactly when the end node is unreachable from the
start along the parsed adjacency, and every returned path is a valid path of
minimum length (minimum edge count) among all paths between the endpoints. -/
theorem C7_shortest_path_correct (g : Graph) (s e : String) :
    (s = e → find_shortest_path g s e = some [s]) ∧
    (find_shortest_path g s e = none ↔ ¬ Reach g s e) ∧
    (∀ p, find_shortest_path g s e = some p →
      IsPathL g s e p ∧ ∀ r, IsPathL g s e r → p.length ≤ r.length) :=
  find_shortest_path_spec g s e

/-- C7 witness: on the graph `A → [B, C]`, `C → [B]` the search returns the
direct path `[A, B]`, which is valid and of minimal length. -/
theorem C7_witness :
    find_shortest_path [("A", ["B", "C"]), ("C", ["B"])] "A" "B" = some ["A", "B"] ∧
    IsPathL [("A", ["B", "C"]), ("C", ["B"])] "A" "B" ["A", "B"] ∧
    ∀ r, IsPathL [("A", ["B", "C"]), ("C", ["B"])] "A" "B" r → 2 ≤ r.length := by
  have h := (C7_shortest_path_correct [("A", ["B", "C"]), ("C", ["B"])] "A" "B").2.2
    ["A", "B"] (by decide)
  exact ⟨by decide, h.1, fun r hr => h.2 r hr⟩

/-- C8: every sequence returned by `detect_cycles` is a valid cycle of the
parsed graph — non-empty, each consecutive pair an edge of the adjacency
mapping, and an edge from the last node back to the first. -/
theorem C8_detect_cycles_sound (g : Graph) (nodes : List String) :
    ∀ c ∈ detect_cycles g nodes, validCycleB g c = true := by
  unfold detect_cycles
  have hfold : ∀ (l : List String) (st : List String × List (List String)),
      (∀ c ∈ st.2, validCycleB g c = true) →
      ∀ c ∈ (l.foldl (fun st node => if memB node st.1 then st
        else dcDfs g (graphSize g + nodes.length + 2) node [] [] st) st).2,
        validCycleB g c = true := by
    intro l
    induction l with
    | nil =>
      intro st hs c hc
      exact hs c hc
    | cons a t ih =>
      intro st hs c hc
      refine ih _ ?_ c hc
      intro c' hc'
      by_cases hm : memB a st.1 = true
      · simp only [if_pos hm] at hc'
        exact hs c' hc'
      · simp only [if_neg hm] at hc'
        refine dcDfs_sound g _ a [] [] st rfl ?_ ?_ hs c' hc'
        · intro y hy
          exact Option.noConfusion hy
        · intro x hx
          simp at hx
  exact hfold nodes ([], []) (by intro c hc; simp at hc)

/-- C8 witness: on the two-cycle `A → B → A` the recorded cycle `[A, B]` is
valid. -/
theorem C8_witness :
    ["A", "B"] ∈ detect_cycles [("A", ["B"]), ("B", ["A"])] ["A", "B"] ∧
    validCycleB [("A", ["B"]), ("B", ["A"])] ["A", "B"] = true :=
  ⟨by decide, C8_detect_cycles_sound [("A", ["B"]), ("B", ["A"])] ["A", "B"]
    ["A", "B"] (by decide)⟩

/-- C9 counterexample: running `is_connected` on the graph parsed from
`"A→B"` (whose defaultdict has only the key `A`) inserts the missing key `B`
with an empty list — the adjacency mapping after the call differs from the
mapping before it, so the analyzers are not key-set-preserving. -/
theorem C9_counterexample :
    (is_connectedSt (parseGraphData "A→B").graph (parseGraphData "A→B").nodes).2 ≠
      (parseGraphData "A→B").graph := by
  decide

/-- C9 (amended): the only mutation any of the five analyzers performs on the
parsed graph is the defaultdict auto-insertion of missing keys with empty
adjacency lists on read: the result mapping extends the original by
empty-valued keys only, and every adjacency lookup yields the same list
before and after the call — contents of existing adjacency lists are never
changed. -/
theorem C9_analyzers_only_add_empty_keys (g : Graph) (nodes : List String)
    (s e : String) (maxP : Nat) :
    (ExtendsEmpty g (is_connectedSt g nodes).2 ∧
      ∀ k, adj (is_connectedSt g nodes).2 k = adj g k) ∧
    (ExtendsEmpty g (find_connected_componentsSt g nodes).2 ∧
      ∀ k, adj (find_connected_componentsSt g nodes).2 k = adj g k) ∧
    (ExtendsEmpty g (find_shortest_pathSt g s e).2 ∧
      ∀ k, adj (find_shortest_pathSt g s e).2 k = adj g k) ∧
    (ExtendsEmpty g (find_all_pathsSt g s e maxP).2 ∧
      ∀ k, adj (find_all_pathsSt g s e maxP).2 k = adj g k) ∧
    (ExtendsEmpty g (detect_cyclesSt g nodes).2 ∧
      ∀ k, adj (detect_cyclesSt g nodes).2 k = adj g k) := by
  have h1 : ExtendsEmpty g (is_connectedSt g nodes).2 := by
    unfold is_connectedSt
    cases nodes with
    | nil => exact extendsEmpty_refl g
    | cons n rest => exact dfsLoopSt_extends _ _ _ _
  have h2 : ExtendsEmpty g (find_connected_componentsSt g nodes).2 :=
    fccGoSt_extends _ _ _ _ _
  have h3 : ExtendsEmpty g (find_shortest_pathSt g s e).2 := by
    unfold find_shortest_pathSt
    split
    · exact extendsEmpty_refl g
    · exact bfsLoopSt_extends _ _ _ _ _
  have h4 : ExtendsEmpty g (find_all_pathsSt g s e maxP).2 :=
    fapDfsSt_extends _ _ _ _ _ _ _ _
  have h5 : ExtendsEmpty g (detect_cyclesSt g nodes).2 := detect_cyclesSt_extends g nodes
  exact ⟨⟨h1, adj_of_extendsEmpty h1⟩, ⟨h2, adj_of_extendsEmpty h2⟩,
    ⟨h3, adj_of_extendsEmpty h3⟩, ⟨h4, adj_of_extendsEmpty h4⟩,
    ⟨h5, adj_of_extendsEmpty h5⟩⟩

/-- C10: with a parsed non-empty adjacency mapping, a `path_analysis` request
with an empty (falsy) start or end node, or an unrecognized `analysis_type`,
falls through every branch of the `elif` chain: the report is exactly the
header plus the graph-structure block — no analysis-specific section and no
error message. -/
theorem C10_structure_only_on_unselected_analysis (input atype s e : String)
    (hg : (parseGraphData input).graph ≠ [])
    (hsel : (atype = "path_analysis" ∧ (s = "" ∨ e = "")) ∨
      atype ∉ ["path_analysis", "eulerian_path", "connectivity", "cycle_detection"]) :
    analyze_graph_traversal input atype s e =
      ("Graph Traversal Analysis: " ++ atype ++ "\n" ++ repeatC '=' 50 ++ "\n") ++
        structureSection (parseGraphData input) :=
  analyze_structure_only input atype s e hg hsel

/-- C10 witness: the unrecognized analysis type `"degree_summary"` on the
parsed graph of `"A-B"`. -/
theorem C10_witness :
    (parseGraphData "A-B").graph ≠ [] ∧
    analyze_graph_traversal "A-B" "degree_summary" "" "" =
      ("Graph Traversal Analysis: " ++ "degree_summary" ++ "\n" ++ repeatC '=' 50 ++ "\n") ++
        structureSection (parseGraphData "A-B") :=
  ⟨by decide, C10_structure_only_on_unselected_analysis "A-B" "degree_summary" "" ""
    (by decide) (Or.inr (by decide))⟩

end GraphTool
